import Mathlib

/-!
The bustub trie (`src/primer/p0_trie.cpp`): node operations and `Trie::Remove`.

A shallow embedding of the member functions defined in `p0_trie.cpp`.

* `std::string` is `List Char`; `key[i]` is `key[i]?` (an access outside the
  string yields `none`, which aborts the whole call).
* `std::unordered_map<char, std::unique_ptr<TrieNode>>` is an association list
  `List (Char × TrieNode V)`; the map operations the code uses (`count`, `empty`,
  `find`, `try_emplace`, `erase`) are the functions of `Children`; `swap` with a
  fresh empty map is part of `TrieNode.moveFrom`.
* A `std::unique_ptr<TrieNode> *` that points into a children map is a pair
  (edge character, node); writing through it is `Children.assign`.
* Mutation is explicit state passing: a member function returns its result
  together with the object after the call.
* The latch of `common/rwlatch.h` is seen through the events of one thread in
  program order (`Event`): the scoped guards emit their lock and unlock calls,
  `Trie.RemoveEvents` lists what one call of `Remove` does.
-/

set_option autoImplicit false

namespace bustub

/-- Modelled from the spec: the class declarations of `TrieNode` and
`TrieNodeWithValue<T>` live in `primer/p0_trie.h`, which is not among the sources.
The fields `key_char_`, `is_end_` and `children_` are the ones the member functions
of `p0_trie.cpp` read and write; `value_` is the payload of the spec's data model
(present for a value-bearing node, absent for a plain `TrieNode`). -/
inductive TrieNode (V : Type) where
  | mk (key_char_ : Char) (is_end_ : Bool) (value_ : Option V)
      (children_ : List (Char × TrieNode V)) : TrieNode V

/-! ## The children map -/

namespace Children

variable {V : Type}

/-- Map lookup `children_.find(c)`: the node stored under `c`, if any. -/
def find (c : Char) : List (Char × TrieNode V) → Option (TrieNode V)
  | [] => none
  | (k, n) :: rest => if k = c then some n else find c rest

/-- Map `children_.count(c)`: the number of entries under `c`. -/
def count (c : Char) : List (Char × TrieNode V) → Nat
  | [] => 0
  | (k, _) :: rest => if k = c then count c rest + 1 else count c rest

/-- Map `children_.empty()`. -/
def empty (m : List (Char × TrieNode V)) : Bool := m.isEmpty

/-- Map `children_.erase(c)`: drop every entry under `c`. -/
def erase (c : Char) : List (Char × TrieNode V) → List (Char × TrieNode V)
  | [] => []
  | (k, n) :: rest => if k = c then erase c rest else (k, n) :: erase c rest

/-- Map `children_.try_emplace(c, child)`: the map afterwards and whether the entry
was inserted (`res.second`); an existing entry is never overwritten. -/
def try_emplace (c : Char) (child : TrieNode V) (m : List (Char × TrieNode V)) :
    List (Char × TrieNode V) × Bool :=
  if count c m = 0 then (m ++ [(c, child)], true) else (m, false)

/-- Writing `n` through a pointer to the entry under `c` (the entry `find c`
designates): the entry keeps its place in the map. -/
def assign (c : Char) (n : TrieNode V) : List (Char × TrieNode V) → List (Char × TrieNode V)
  | [] => []
  | (k, old) :: rest => if k = c then (k, n) :: rest else (k, old) :: assign c n rest

end Children

/-! ## `TrieNode` -/

namespace TrieNode

variable {V : Type}

/-- Field `key_char_`. -/
def key_char_ : TrieNode V → Char
  | mk c _ _ _ => c

/-- Field `is_end_`. -/
def is_end_ : TrieNode V → Bool
  | mk _ e _ _ => e

/-- Field `value_` (see `TrieNode`). -/
def value_ : TrieNode V → Option V
  | mk _ _ v _ => v

/-- Field `children_`. -/
def children_ : TrieNode V → List (Char × TrieNode V)
  | mk _ _ _ cs => cs

/-- The node with its children map replaced. -/
def withChildren (n : TrieNode V) (cs : List (Char × TrieNode V)) : TrieNode V :=
  mk n.key_char_ n.is_end_ n.value_ cs

/-- Constructor `TrieNode::TrieNode(char key_char)`: `is_end_` starts false, no children. -/
def new (key_char : Char) : TrieNode V := mk key_char false none []

/-- Member `TrieNode::GetKeyChar`. -/
def GetKeyChar (n : TrieNode V) : Char := n.key_char_

/-- Move constructor `TrieNode::TrieNode(TrieNode &&other_trie_node)`: the key character is copied
and the children maps are swapped, the new node's map being empty before the
swap. Nothing else is initialised from the source, so the new node is a plain
node with `is_end_` false. Returns the new node and the moved-from node. -/
def moveFrom (other_trie_node : TrieNode V) : TrieNode V × TrieNode V :=
  (mk other_trie_node.GetKeyChar false none other_trie_node.children_,
   other_trie_node.withChildren [])

/-- Member `TrieNode::HasChild`. -/
def HasChild (n : TrieNode V) (key_char : Char) : Bool :=
  decide (Children.count key_char n.children_ ≠ 0)

/-- Member `TrieNode::HasChildren`. -/
def HasChildren (n : TrieNode V) : Bool := !Children.empty n.children_

/-- Member `TrieNode::IsEndNode`. -/
def IsEndNode (n : TrieNode V) : Bool := n.is_end_

/-- Member `TrieNode::InsertChildNode`: the node the returned pointer designates
(`none` for `nullptr`) and the node after the call. -/
def InsertChildNode (n : TrieNode V) (key_char : Char) (child : TrieNode V) :
    Option (TrieNode V) × TrieNode V :=
  if key_char ≠ child.GetKeyChar then (none, n)
  else
    let res := Children.try_emplace key_char child n.children_
    (if res.2 then Children.find key_char res.1 else none, n.withChildren res.1)

/-- Member `TrieNode::GetChildNode`: the node the returned pointer designates
(`none` for `nullptr`). -/
def GetChildNode (n : TrieNode V) (key_char : Char) : Option (TrieNode V) :=
  Children.find key_char n.children_

/-- Member `TrieNode::RemoveChildNode`. -/
def RemoveChildNode (n : TrieNode V) (key_char : Char) : TrieNode V :=
  n.withChildren (Children.erase key_char n.children_)

/-- Member `TrieNode::SetEndNode`. -/
def SetEndNode (n : TrieNode V) (is_end : Bool) : TrieNode V :=
  mk n.key_char_ is_end n.value_ n.children_

/-- The node after the child that `GetChildNode key_char` designates has been
mutated in place into `child`. -/
def storeChild (n : TrieNode V) (key_char : Char) (child : TrieNode V) : TrieNode V :=
  n.withChildren (Children.assign key_char child n.children_)

end TrieNode

/-! ## `Trie` -/

/-- The trie: its root node (`root_`). The latch is not part of the state that
`Remove` computes on. -/
structure Trie (V : Type) where
  root_ : TrieNode V

namespace Trie

variable {V : Type}

/-- Constructor `Trie::Trie()`: the root carries the character `'\0'`. -/
def new : Trie V := ⟨TrieNode.new (Char.ofNat 0)⟩

/-- Member `Trie::RemoveHelper(key, idx, prev)` with an explicit bound on the nesting of
calls. The result is the returned flag and the node `*prev` after the call;
`none` when the bound is exhausted, when `key` is read outside its length, or
when a null child pointer is dereferenced. -/
def RemoveHelperFuel : Nat → List Char → Nat → TrieNode V → Option (Bool × TrieNode V)
  | 0, _, _, _ => none
  | fuel + 1, key, idx, prev => do
    let k0 ← key[0]?
    let node := prev.GetChildNode k0
    let reach_end := decide (key.length = idx + 1)
    let node_exists := node.isSome
    let has_val := node_exists && (match node with
      | some n => n.IsEndNode
      | none => false)
    if reach_end then
      if node_exists then
        if has_val then
          let n ← node
          let moved := TrieNode.moveFrom n
          let tmp := moved.1
          let prev1 := prev.storeChild k0 moved.2
          let ki ← key[idx]?
          let prev2 := prev1.RemoveChildNode ki
          if tmp.HasChildren then
            some (true, (prev2.InsertChildNode ki tmp).2)
          else
            some (true, prev2)
        else
          some (false, prev)
      else
        some (false, prev)
    else if !node_exists then
      some (false, prev)
    else do
      let n ← node
      let r ← RemoveHelperFuel fuel key (idx + 1) n
      let prev1 := prev.storeChild k0 r.2
      if !r.2.HasChildren && !r.2.IsEndNode then
        let ki ← key[idx]?
        some (r.1, prev1.RemoveChildNode ki)
      else
        some (r.1, prev1)

/-- Member `Trie::RemoveHelper(key, idx, prev)`: the recursion advances `idx` by one per
call and stops at `idx + 1 = key.size()`, so `key.size() - idx` nested calls are
allowed. -/
def RemoveHelper (key : List Char) (idx : Nat) (prev : TrieNode V) :
    Option (Bool × TrieNode V) :=
  RemoveHelperFuel (key.length - idx) key idx prev

/-- Member `Trie::Remove(key)`: the returned flag and the trie after the call. -/
def Remove (t : Trie V) (key : List Char) : Option (Bool × Trie V) :=
  if key.isEmpty then some (false, t)
  else do
    let res ← RemoveHelper key 0 t.root_
    some (res.1, ⟨res.2⟩)

end Trie

/-! ## Observations on a trie: stored keys, dead nodes -/

namespace TrieNode

variable {V : Type}

/-- Following the characters of `k` one by one from `n`: the node reached. -/
def descend (n : TrieNode V) : List Char → Option (TrieNode V)
  | [] => some n
  | c :: rest =>
    match n.GetChildNode c with
    | some child => descend child rest
    | none => none

/-- A node that is neither terminal nor a parent ("dead node"). -/
def isDead (n : TrieNode V) : Bool := !n.HasChildren && !n.IsEndNode

mutual
/-- No node strictly below `n` is dead. -/
def noDeadBelow : TrieNode V → Bool
  | mk _ _ _ cs => noDeadIn cs
/-- No node of the map `cs`, nor any node below one, is dead. -/
def noDeadIn : List (Char × TrieNode V) → Bool
  | [] => true
  | (_, n) :: rest => !n.isDead && noDeadBelow n && noDeadIn rest
end

mutual
/-- Below `n`, every node sits under the edge of its own key character and no
map has two entries under one character (what `InsertChildNode` and
`std::unordered_map` guarantee). -/
def wellFormed : TrieNode V → Bool
  | mk _ _ _ cs => wellFormedIn cs
/-- As `wellFormed`, for the entries of a children map. -/
def wellFormedIn : List (Char × TrieNode V) → Bool
  | [] => true
  | (c, n) :: rest =>
    decide (n.key_char_ = c) && decide (Children.count c rest = 0) && wellFormed n
      && wellFormedIn rest
end

end TrieNode

namespace Trie

variable {V : Type}

/-- The key `k` is stored: it is non-empty, following its characters from the
root reaches a node, and that node is terminal. -/
def isStored (t : Trie V) (k : List Char) : Bool :=
  !k.isEmpty && (match t.root_.descend k with
    | some n => n.IsEndNode
    | none => false)

/-- Modelled from the spec: `Trie::GetValue` is declared in the absent header.
Per the spec's `Get`, the value of a stored key is the payload of the terminal
node at the end of its path; an empty key, a missing edge or a non-terminal end
node give not-found. -/
def storedValue (t : Trie V) (k : List Char) : Option V :=
  if t.isStored k then (t.root_.descend k).bind TrieNode.value_ else none

/-- Every non-root node is terminal or has at least one child. -/
def noDeadNode (t : Trie V) : Bool := t.root_.noDeadBelow

/-- The trie is a well-formed object graph (see `TrieNode.wellFormed`). -/
def wellFormed (t : Trie V) : Bool := t.root_.wellFormed

end Trie

/-! ## Concrete tries -/

section Examples

/-- A leaf holding the value `v` under the character `c`. -/
def leaf (c : Char) (v : Nat) : TrieNode Nat := .mk c true (some v) []

/-- A structural (non-terminal) node. -/
def inner (c : Char) (cs : List (Char × TrieNode Nat)) : TrieNode Nat := .mk c false none cs

/-- A trie from the children of its root. -/
def trieOf (cs : List (Char × TrieNode Nat)) : Trie Nat := ⟨.mk (Char.ofNat 0) false none cs⟩

/-- The trie storing `"ab" ↦ 1`. -/
def trie_ab : Trie Nat := trieOf [('a', inner 'a' [('b', leaf 'b' 1)])]

/-- The trie storing `"aa" ↦ 1`. -/
def trie_aa : Trie Nat := trieOf [('a', inner 'a' [('a', leaf 'a' 1)])]

/-- The trie storing `"ab" ↦ 1` and `"abc" ↦ 2`. -/
def trie_ab_abc : Trie Nat :=
  trieOf [('a', inner 'a' [('b', .mk 'b' true (some 1) [('c', leaf 'c' 2)])])]

/-- The trie storing `"aa" ↦ 1` and `"aab" ↦ 2`. -/
def trie_aa_aab : Trie Nat :=
  trieOf [('a', inner 'a' [('a', .mk 'a' true (some 1) [('b', leaf 'b' 2)])])]

/-- The trie storing `"aa" ↦ 1` and `"ab" ↦ 2`. -/
def trie_aa_ab : Trie Nat :=
  trieOf [('a', inner 'a' [('a', leaf 'a' 1), ('b', leaf 'b' 2)])]

/-- The trie storing `"xyz" ↦ 1` only: a single chain below the root. -/
def trie_xyz : Trie Nat :=
  trieOf [('x', inner 'x' [('y', inner 'y' [('z', leaf 'z' 1)])])]

/-- The trie storing `"aaa" ↦ 1` only. -/
def trie_aaa : Trie Nat :=
  trieOf [('a', inner 'a' [('a', inner 'a' [('a', leaf 'a' 1)])])]

/-- The chain `a`, `aa` with no terminal node: the node `aa` is dead. -/
def trie_dead_aa : Trie Nat := trieOf [('a', inner 'a' [('a', inner 'a' [])])]

end Examples

/-! ## What is stored below a node -/

namespace TrieNode

variable {V : Type}

/-- The payload found by following the path `p` from `n`: `some v` when the path
leads to a terminal node whose `value_` is `v`, `none` when an edge is missing or
the node reached is not terminal. -/
def valueAt (n : TrieNode V) (p : List Char) : Option (Option V) :=
  match n.descend p with
  | some m => if m.IsEndNode then some m.value_ else none
  | none => none

end TrieNode

/-! ## The nesting of `RemoveHelper` calls -/

namespace Trie

variable {V : Type}

/-- The values of `idx` of the nested calls that `RemoveHelper(key, idx, prev)`
makes, outermost first, under the same bound as `RemoveHelperFuel`: a call is
followed by the nested call `RemoveHelper(key, idx + 1, node)` exactly when it is
not at the last character (`reach_end` false) and the child looked up at `key[0]`
exists. -/
def RemoveHelperCalls : Nat → List Char → Nat → TrieNode V → List Nat
  | 0, _, _, _ => []
  | fuel + 1, key, idx, prev =>
    match key[0]? with
    | none => [idx]
    | some k0 =>
      if key.length = idx + 1 then [idx]
      else
        match prev.GetChildNode k0 with
        | none => [idx]
        | some n => idx :: RemoveHelperCalls fuel key (idx + 1) n

end Trie

/-! ## The latch (`common/rwlatch.h`) and what one call does, in program order -/

/-- What one thread does, in program order: a call of one of the four members of
`ReaderWriterLatch`, or an access to a node of the trie (by the call of
`RemoveHelper` with the given `idx`). -/
inductive Event where
  | WLock : Event
  | WUnlock : Event
  | RLock : Event
  | RUnlock : Event
  | nodeAccess (idx : Nat) : Event
  deriving DecidableEq

namespace AutoWriterLatch

/-- Constructor `AutoWriterLatch(latch)`: calls `latch_->WLock()`. -/
def construct : List Event := [Event.WLock]

/-- Destructor `~AutoWriterLatch()`: calls `latch_->WUnlock()`. -/
def destruct : List Event := [Event.WUnlock]

/-- A function body with an `AutoWriterLatch` local declared first: the
constructor runs, then the body, then the destructor when the scope is left. -/
def guardedBody (body : List Event) : List Event := construct ++ body ++ destruct

end AutoWriterLatch

namespace AutoReaderLatch

/-- Constructor `AutoReaderLatch(latch)`: calls `latch_->RLock()`. -/
def construct : List Event := [Event.RLock]

/-- Destructor `~AutoReaderLatch()`: calls `latch_->RUnlock()`. -/
def destruct : List Event := [Event.RUnlock]

end AutoReaderLatch

/-- All node accesses of the events happen while the thread holds the write latch
(`held`), and the latch is released when the events end. -/
def underWriteLatch : Bool → List Event → Bool
  | held, [] => !held
  | _, Event.WLock :: es => underWriteLatch true es
  | _, Event.WUnlock :: es => underWriteLatch false es
  | held, Event.nodeAccess _ :: es => held && underWriteLatch held es
  | held, Event.RLock :: es => underWriteLatch held es
  | held, Event.RUnlock :: es => underWriteLatch held es

namespace Trie

variable {V : Type}

/-- The events of one call of `Trie::Remove(key)`. The body declares no latch guard
and calls no member of the latch, and neither does `RemoveHelper`; an empty key
returns at once; otherwise every nested call of `RemoveHelper` reads the node
`*prev` (`GetChildNode`). -/
def RemoveEvents (t : Trie V) (key : List Char) : List Event :=
  if key.isEmpty then []
  else (RemoveHelperCalls key.length key 0 t.root_).map Event.nodeAccess

end Trie


/-! ## The children map: basic facts -/

namespace Children

variable {V : Type}

theorem assign_of_find {c : Char} {n : TrieNode V} :
    ∀ {m : List (Char × TrieNode V)}, find c m = some n → assign c n m = m
  | [], h => by simp [find] at h
  | (k, old) :: rest, h => by
    by_cases hk : k = c
    · simp [find, hk] at h
      simp [assign, hk, h]
    · simp [find, hk] at h
      simp [assign, hk, assign_of_find h]

theorem find_eq_none_iff_count {c : Char} :
    ∀ {m : List (Char × TrieNode V)}, find c m = none ↔ count c m = 0
  | [] => by simp [find, count]
  | (k, n) :: rest => by
    by_cases hk : k = c
    · simp [find, count, hk]
    · simp [find, count, hk, find_eq_none_iff_count]

theorem find_append_singleton {c d : Char} {x : TrieNode V} :
    ∀ {m : List (Char × TrieNode V)},
      find d (m ++ [(c, x)]) = match find d m with
        | some y => some y
        | none => if c = d then some x else none
  | [] => by simp [find]
  | (k, n) :: rest => by
    by_cases hk : k = d
    · simp [find, hk]
    · simp [find, hk, find_append_singleton]

end Children


/-! ## Dead nodes -/

namespace TrieNode

variable {V : Type}

theorem noDeadIn_find {c : Char} {n : TrieNode V} :
    ∀ {m : List (Char × TrieNode V)}, noDeadIn m = true → Children.find c m = some n →
      n.isDead = false ∧ n.noDeadBelow = true
  | [], _, h => by simp [Children.find] at h
  | (k, old) :: rest, hm, h => by
    simp only [noDeadIn, Bool.and_eq_true, Bool.not_eq_true'] at hm
    by_cases hk : k = c
    · simp [Children.find, hk] at h
      subst h
      exact ⟨hm.1.1, hm.1.2⟩
    · simp [Children.find, hk] at h
      exact noDeadIn_find hm.2 h

theorem noDeadBelow_child {prev n : TrieNode V} {c : Char}
    (hp : prev.noDeadBelow = true) (h : prev.GetChildNode c = some n) :
    n.isDead = false ∧ n.noDeadBelow = true := by
  cases prev with
  | mk kc e v cs =>
    simp only [noDeadBelow] at hp
    exact noDeadIn_find hp h

theorem storeChild_of_GetChildNode {prev n : TrieNode V} {c : Char}
    (h : prev.GetChildNode c = some n) : prev.storeChild c n = prev := by
  cases prev with
  | mk kc e v cs =>
    simp only [GetChildNode, children_] at h
    simp [storeChild, withChildren, children_, key_char_, is_end_, value_,
      Children.assign_of_find h]

end TrieNode

/-! ## One call of `RemoveHelper`, case by case -/

namespace Trie

variable {V : Type}

/-- The child looked up at `key[0]` is absent: failure, nothing changes. -/
theorem RemoveHelperFuel_absent {fuel : Nat} {key : List Char} {idx : Nat} {prev : TrieNode V}
    {k0 : Char} (h0 : key[0]? = some k0) (hn : prev.GetChildNode k0 = none) :
    RemoveHelperFuel (fuel + 1) key idx prev = some (false, prev) := by
  simp [RemoveHelperFuel, h0, hn]

/-- Last character, the child at `key[0]` is not terminal: failure, nothing changes. -/
theorem RemoveHelperFuel_end_plain {fuel : Nat} {key : List Char} {idx : Nat}
    {prev n : TrieNode V} {k0 : Char} (h0 : key[0]? = some k0)
    (hn : prev.GetChildNode k0 = some n) (hend : key.length = idx + 1)
    (hv : n.IsEndNode = false) :
    RemoveHelperFuel (fuel + 1) key idx prev = some (false, prev) := by
  simp [RemoveHelperFuel, h0, hn, hend, hv]

/-- Last character, the child at `key[0]` is terminal: the child is moved from,
the entry under `key[idx]` is erased and the moved copy is re-inserted under
`key[idx]` when it has children. -/
theorem RemoveHelperFuel_end_value {fuel : Nat} {key : List Char} {idx : Nat}
    {prev n : TrieNode V} {k0 ki : Char} (h0 : key[0]? = some k0) (hi : key[idx]? = some ki)
    (hn : prev.GetChildNode k0 = some n) (hend : key.length = idx + 1)
    (hv : n.IsEndNode = true) :
    RemoveHelperFuel (fuel + 1) key idx prev =
      some (true,
        if (TrieNode.moveFrom n).1.HasChildren then
          (((prev.storeChild k0 (TrieNode.moveFrom n).2).RemoveChildNode ki).InsertChildNode ki
            (TrieNode.moveFrom n).1).2
        else (prev.storeChild k0 (TrieNode.moveFrom n).2).RemoveChildNode ki) := by
  by_cases hc : (TrieNode.moveFrom n).1.HasChildren = true <;>
    simp [RemoveHelperFuel, h0, hi, hn, hend, hv, hc]

/-- Not the last character, the child at `key[0]` exists: recursion into that
child, then the entry under `key[idx]` is erased when the child has become dead. -/
theorem RemoveHelperFuel_descend {fuel : Nat} {key : List Char} {idx : Nat}
    {prev n : TrieNode V} {k0 ki : Char} (h0 : key[0]? = some k0) (hi : key[idx]? = some ki)
    (hn : prev.GetChildNode k0 = some n) (hend : key.length ≠ idx + 1) :
    RemoveHelperFuel (fuel + 1) key idx prev =
      (RemoveHelperFuel fuel key (idx + 1) n).bind fun r =>
        some (r.1,
          if r.2.isDead then (prev.storeChild k0 r.2).RemoveChildNode ki
          else prev.storeChild k0 r.2) := by
  cases hr : RemoveHelperFuel fuel key (idx + 1) n with
  | none => simp [RemoveHelperFuel, h0, hi, hn, hend, hr]
  | some r =>
    by_cases hd : r.2.isDead = true
    · have hd2 := hd
      simp only [TrieNode.isDead, Bool.and_eq_true, Bool.not_eq_true'] at hd2
      simp [RemoveHelperFuel, h0, hi, hn, hend, hr, hd, hd2]
    · have hd2 := hd
      simp only [TrieNode.isDead, Bool.and_eq_true, Bool.not_eq_true'] at hd2
      simp [RemoveHelperFuel, h0, hi, hn, hend, hr, hd, hd2]

end Trie


/-! ## `RemoveHelper` returns, and a failed call changes nothing -/

namespace Trie

variable {V : Type}

theorem getElem?_zero_of_lt {key : List Char} {idx : Nat} (h : idx < key.length) :
    ∃ k0, key[0]? = some k0 := by
  cases key with
  | nil => simp at h
  | cons c rest => exact ⟨c, by simp⟩

theorem getElem?_of_lt {key : List Char} {idx : Nat} (h : idx < key.length) :
    ∃ ki, key[idx]? = some ki :=
  ⟨key[idx], List.getElem?_eq_getElem h⟩

/-- With `idx` inside the key and `key.size() - idx` nested calls allowed,
`RemoveHelper` returns. -/
theorem RemoveHelperFuel_isSome :
    ∀ (fuel : Nat) (key : List Char) (idx : Nat) (prev : TrieNode V),
      idx < key.length → key.length ≤ idx + fuel →
      ∃ r, RemoveHelperFuel fuel key idx prev = some r
  | 0, key, idx, _, hlt, hfuel => by omega
  | fuel + 1, key, idx, prev, hlt, hfuel => by
    obtain ⟨k0, h0⟩ := getElem?_zero_of_lt hlt
    obtain ⟨ki, hi⟩ := getElem?_of_lt hlt
    cases hn : prev.GetChildNode k0 with
    | none => exact ⟨_, RemoveHelperFuel_absent h0 hn⟩
    | some n =>
      by_cases hend : key.length = idx + 1
      · cases hv : n.IsEndNode with
        | false => exact ⟨_, RemoveHelperFuel_end_plain h0 hn hend hv⟩
        | true => exact ⟨_, RemoveHelperFuel_end_value h0 hi hn hend hv⟩
      · obtain ⟨r, hr⟩ := RemoveHelperFuel_isSome fuel key (idx + 1) n (by omega) (by omega)
        rw [RemoveHelperFuel_descend h0 hi hn hend, hr]
        exact ⟨_, rfl⟩

/-- On a non-empty key `Remove` returns. -/
theorem Remove_isSome (t : Trie V) (key : List Char) : ∃ r, t.Remove key = some r := by
  cases key with
  | nil => exact ⟨_, rfl⟩
  | cons c rest =>
    obtain ⟨r, hr⟩ := RemoveHelperFuel_isSome (rest.length + 1) (c :: rest) 0 t.root_
      (by simp) (by simp)
    refine ⟨(r.1, ⟨r.2⟩), ?_⟩
    simp [Remove, RemoveHelper, hr]

/-- A call of `RemoveHelper` that returns false on a subtree without dead nodes
leaves the subtree as it was. -/
theorem RemoveHelperFuel_false_unchanged :
    ∀ (fuel : Nat) (key : List Char) (idx : Nat) (prev prev1 : TrieNode V),
      idx < key.length → prev.noDeadBelow = true →
      RemoveHelperFuel fuel key idx prev = some (false, prev1) → prev1 = prev
  | 0, key, idx, _, _, _, _, h => by simp [RemoveHelperFuel] at h
  | fuel + 1, key, idx, prev, prev1, hlt, hnd, h => by
    obtain ⟨k0, h0⟩ := getElem?_zero_of_lt hlt
    obtain ⟨ki, hi⟩ := getElem?_of_lt hlt
    cases hn : prev.GetChildNode k0 with
    | none =>
      rw [RemoveHelperFuel_absent h0 hn] at h
      simp at h
      exact h.symm
    | some n =>
      by_cases hend : key.length = idx + 1
      · cases hv : n.IsEndNode with
        | false =>
          rw [RemoveHelperFuel_end_plain h0 hn hend hv] at h
          simp at h
          exact h.symm
        | true =>
          rw [RemoveHelperFuel_end_value h0 hi hn hend hv] at h
          simp at h
      · rw [RemoveHelperFuel_descend h0 hi hn hend] at h
        cases hr : RemoveHelperFuel fuel key (idx + 1) n with
        | none => simp [hr] at h
        | some r =>
          obtain ⟨b, n1⟩ := r
          simp only [hr, Option.bind_some, Option.some.injEq, Prod.mk.injEq] at h
          obtain ⟨hb, hp⟩ := h
          have hchild := TrieNode.noDeadBelow_child hnd hn
          have hn1 : n1 = n :=
            RemoveHelperFuel_false_unchanged fuel key (idx + 1) n n1 (by omega) hchild.2 hr
          subst hn1
          simp only [hchild.1, Bool.false_eq_true, if_false]
          exact TrieNode.storeChild_of_GetChildNode hn

end Trie


/-! ## The claims -/

section Claims

variable {V : Type}

/-- C1 (Remove-then-absent) fails on the code: in the well-formed trie that stores
only "ab", the stored key "ab" is not removed: `Remove("ab")` looks the child up
under `key[0]` at depth 1, finds no node "aa", returns false and leaves "ab"
stored. -/
theorem C1_stored_key_not_removed :
    trie_ab.wellFormed = true ∧ trie_ab.isStored ['a', 'b'] = true ∧
      trie_ab.Remove ['a', 'b'] = some (false, trie_ab) :=
  ⟨by decide, by decide, rfl⟩

/-- C2 (not-found is reported) fails on the code: in the well-formed trie that
stores only "aa", the key "ab" is not stored (the edge `b` is missing below `a`),
yet `Remove("ab")` returns true. -/
theorem C2_absent_key_reported_removed :
    trie_aa.wellFormed = true ∧ trie_aa.isStored ['a', 'b'] = false ∧
      (trie_aa.root_.descend ['a', 'b']).isSome = false ∧
      trie_aa.Remove ['a', 'b'] = some (true, trie_aa) :=
  ⟨by decide, by decide, by decide, rfl⟩

/-- C3 (failure is atomic): on a trie without dead nodes `Remove` returns, and a
call that returns false leaves the trie identical to the trie before the call. -/
theorem C3_failed_Remove_leaves_trie_unchanged (t : Trie V) (key : List Char)
    (hnd : t.noDeadNode = true) :
    (∃ r, t.Remove key = some r) ∧
      ∀ t1 : Trie V, t.Remove key = some (false, t1) → t1 = t := by
  refine ⟨Trie.Remove_isSome t key, ?_⟩
  intro t1 h
  cases key with
  | nil =>
    simp [Trie.Remove] at h
    exact h.symm
  | cons c rest =>
    simp only [Trie.Remove, List.isEmpty_cons, Bool.false_eq_true, if_false, Trie.RemoveHelper,
      List.length_cons, Nat.sub_zero] at h
    cases hr : Trie.RemoveHelperFuel (rest.length + 1) (c :: rest) 0 t.root_ with
    | none => simp [hr] at h
    | some r =>
      obtain ⟨b, n1⟩ := r
      simp only [hr, Option.bind_eq_bind, Option.bind_some, Option.some.injEq,
        Prod.mk.injEq] at h
      obtain ⟨hb, ht⟩ := h
      have hn1 : n1 = t.root_ :=
        Trie.RemoveHelperFuel_false_unchanged (rest.length + 1) (c :: rest) 0 t.root_ n1
          (by simp) hnd hr
      subst hn1
      rfl

/-- Witness for C3: the trie storing "ab" has no dead node, `Remove("zb")` on it
returns false, and the trie is unchanged. -/
theorem C3_failed_Remove_leaves_trie_unchanged_witness :
    trie_ab.noDeadNode = true ∧ trie_ab.Remove ['z', 'b'] = some (false, trie_ab) ∧
      ((∃ r, trie_ab.Remove ['z', 'b'] = some r) ∧
        ∀ t1 : Trie Nat, trie_ab.Remove ['z', 'b'] = some (false, t1) → t1 = trie_ab) :=
  ⟨by decide, rfl, C3_failed_Remove_leaves_trie_unchanged trie_ab ['z', 'b'] (by decide)⟩


/-- C4 (prefix independence, downgrade) fails on the code: in the well-formed trie
that stores "ab" and "abc", the key "ab" is stored and its terminal node has a
child, yet `Remove("ab")` returns false and "ab" stays stored with its value: the
node is not downgraded. -/
theorem C4_stored_key_with_children_not_downgraded :
    trie_ab_abc.wellFormed = true ∧ trie_ab_abc.isStored ['a', 'b'] = true ∧
      (trie_ab_abc.root_.descend ['a', 'b']).map TrieNode.HasChildren = some true ∧
      trie_ab_abc.Remove ['a', 'b'] = some (false, trie_ab_abc) ∧
      trie_ab_abc.storedValue ['a', 'b'] = some 1 :=
  ⟨by decide, by decide, by decide, rfl, by decide⟩

/-- C5 (other keys are untouched) fails on the code: in the well-formed trie that
stores "aa" and "aab", `Remove("ab")` returns true and leaves the trie that stores
only "aa": the other key "aab", stored with value 2 before, is no longer stored. -/
theorem C5_other_key_lost :
    trie_aa_aab.wellFormed = true ∧ trie_aa_aab.storedValue ['a', 'a', 'b'] = some 2 ∧
      trie_aa_aab.Remove ['a', 'b'] = some (true, trie_aa) ∧
      trie_aa.isStored ['a', 'a', 'b'] = false :=
  ⟨by decide, by decide, rfl, by decide⟩

/-- C6 (cascade pruning) fails on the code: in the trie that is the single chain
spelling "xyz", `Remove("xyz")` returns false and the root keeps its child `x`. -/
theorem C6_single_chain_not_pruned :
    trie_xyz.wellFormed = true ∧ trie_xyz.isStored ['x', 'y', 'z'] = true ∧
      trie_xyz.Remove ['x', 'y', 'z'] = some (false, trie_xyz) ∧
      trie_xyz.root_.HasChildren = true :=
  ⟨by decide, by decide, rfl, by decide⟩

/-- C7 (no dead node after Remove) fails on the code: the well-formed trie that
stores only "aaa" has no dead node; `Remove("aba")` returns true and leaves the
chain `a`, `aa` in which the node `aa` is childless and not terminal. -/
theorem C7_Remove_leaves_dead_node :
    trie_aaa.wellFormed = true ∧ trie_aaa.noDeadNode = true ∧
      trie_aaa.Remove ['a', 'b', 'a'] = some (true, trie_dead_aa) ∧
      trie_dead_aa.noDeadNode = false ∧
      (trie_dead_aa.root_.descend ['a', 'a']).map TrieNode.isDead = some true :=
  ⟨by decide, by decide, rfl, by decide, by decide⟩

/-- C8 (idempotent failure) fails on the code: in the well-formed trie that stores
"aa" and "ab", `Remove("ab")` returns true and leaves the trie storing only "aa";
an immediately following second `Remove("ab")` returns true again, not false. -/
theorem C8_second_Remove_succeeds_again :
    trie_aa_ab.wellFormed = true ∧
      trie_aa_ab.Remove ['a', 'b'] = some (true, trie_aa) ∧
      ((trie_aa_ab.Remove ['a', 'b']).bind fun r => r.2.Remove ['a', 'b']) =
        some (true, trie_aa) :=
  ⟨by decide, rfl, rfl⟩

/-- C9 (empty-key rejection): `Remove("")` returns false and the trie, its root
included, is the trie before the call. -/
theorem C9_Remove_empty_key (t : Trie V) : t.Remove [] = some (false, t) := rfl

/-- C10 (InsertChildNode fails exactly on mismatch or duplicate): the returned
pointer is null exactly when the child's key character differs from `c` or the
node already has a child at `c`, and then the node is unchanged; otherwise the
pointer designates `ch`, the children map is the old one extended with `c ↦ ch`
(lookups at other characters are unchanged), and key character, end flag and
value of the node are unchanged. -/
theorem C10_InsertChildNode_fails_exactly_on_mismatch_or_duplicate
    (n : TrieNode V) (c : Char) (ch : TrieNode V) :
    ((n.InsertChildNode c ch).1 = none ↔ (ch.GetKeyChar ≠ c ∨ n.HasChild c = true)) ∧
      ((ch.GetKeyChar ≠ c ∨ n.HasChild c = true) → (n.InsertChildNode c ch).2 = n) ∧
      (¬ (ch.GetKeyChar ≠ c ∨ n.HasChild c = true) →
        (n.InsertChildNode c ch).1 = some ch ∧
        (n.InsertChildNode c ch).2.children_ = n.children_ ++ [(c, ch)] ∧
        (∀ d : Char, (n.InsertChildNode c ch).2.GetChildNode d =
          if d = c then some ch else n.GetChildNode d) ∧
        (n.InsertChildNode c ch).2.GetKeyChar = n.GetKeyChar ∧
        (n.InsertChildNode c ch).2.IsEndNode = n.IsEndNode ∧
        (n.InsertChildNode c ch).2.value_ = n.value_) := by
  cases n with
  | mk kc e v cs =>
    by_cases hk : ch.GetKeyChar = c
    · by_cases hc : Children.count c cs = 0
      · have hfind : Children.find c cs = none := Children.find_eq_none_iff_count.mpr hc
        have hlook : ∀ d : Char, Children.find d (cs ++ [(c, ch)]) =
            if d = c then some ch else Children.find d cs := by
          intro d
          rw [Children.find_append_singleton]
          by_cases hd : d = c
          · subst hd
            simp [hfind]
          · have hd2 : ¬ c = d := fun h => hd h.symm
            cases hf : Children.find d cs <;> simp [hd, hd2]
        refine ⟨?_, ?_, ?_⟩
        · simp [TrieNode.InsertChildNode, TrieNode.HasChild, Children.try_emplace,
            TrieNode.children_, hk, hc, hlook]
        · simp [TrieNode.HasChild, TrieNode.children_, hk, hc]
        · intro _
          have hins : (TrieNode.mk kc e v cs).InsertChildNode c ch =
              (some ch, TrieNode.mk kc e v (cs ++ [(c, ch)])) := by
            simp [TrieNode.InsertChildNode, Children.try_emplace, TrieNode.children_,
              TrieNode.withChildren, TrieNode.key_char_, TrieNode.is_end_, TrieNode.value_,
              hk, hc, hlook]
          rw [hins]
          simp [TrieNode.children_, TrieNode.GetChildNode, TrieNode.GetKeyChar,
            TrieNode.IsEndNode, TrieNode.key_char_, TrieNode.is_end_, TrieNode.value_, hlook]
      · refine ⟨?_, ?_, ?_⟩
        · simp [TrieNode.InsertChildNode, TrieNode.HasChild, Children.try_emplace,
            TrieNode.children_, hk, hc]
        · intro _
          simp [TrieNode.InsertChildNode, Children.try_emplace, TrieNode.children_,
            TrieNode.withChildren, TrieNode.key_char_, TrieNode.is_end_, TrieNode.value_,
            hk, hc]
        · intro h
          exact absurd (Or.inr (by simp [TrieNode.HasChild, TrieNode.children_, hc])) h
    · have hk2 : ¬ c = ch.GetKeyChar := fun h => hk h.symm
      refine ⟨?_, ?_, ?_⟩
      · simp [TrieNode.InsertChildNode, hk, hk2]
      · intro _
        simp [TrieNode.InsertChildNode, hk2]
      · intro h
        exact absurd (Or.inl hk) h

/-- Witness for C10: inserting a fresh child `b` below the node `a` that has the
child `a` succeeds; inserting a second child `a`, or a child whose key character
is not the edge character, returns null. -/
theorem C10_InsertChildNode_fails_exactly_on_mismatch_or_duplicate_witness :
    ((inner 'a' [('a', leaf 'a' 1)]).InsertChildNode 'b' (leaf 'b' 2)).1 = some (leaf 'b' 2) ∧
      ((inner 'a' [('a', leaf 'a' 1)]).InsertChildNode 'b' (leaf 'b' 2)).2 =
        inner 'a' [('a', leaf 'a' 1), ('b', leaf 'b' 2)] ∧
      (inner 'a' [('a', leaf 'a' 1)]).InsertChildNode 'a' (leaf 'a' 2) =
        (none, inner 'a' [('a', leaf 'a' 1)]) ∧
      (inner 'a' [('a', leaf 'a' 1)]).InsertChildNode 'b' (leaf 'c' 2) =
        (none, inner 'a' [('a', leaf 'a' 1)]) ∧
      (((inner 'a' [('a', leaf 'a' 1)]).InsertChildNode 'a' (leaf 'a' 2)).1 = none ↔
        ((leaf 'a' 2).GetKeyChar ≠ 'a' ∨ (inner 'a' [('a', leaf 'a' 1)]).HasChild 'a' = true)) :=
  ⟨rfl, rfl, rfl, rfl,
    (C10_InsertChildNode_fails_exactly_on_mismatch_or_duplicate
      (inner 'a' [('a', leaf 'a' 1)]) 'a' (leaf 'a' 2)).1⟩

end Claims


/-! ## Node operations: erase, lookup and insertion -/

namespace Children

variable {V : Type}

theorem count_erase_self (c : Char) :
    ∀ m : List (Char × TrieNode V), count c (erase c m) = 0
  | [] => rfl
  | (k, n) :: rest => by
    by_cases hk : k = c
    · simp [erase, hk, count_erase_self c rest]
    · simp [erase, count, hk, count_erase_self c rest]

theorem find_erase (c d : Char) :
    ∀ m : List (Char × TrieNode V), find d (erase c m) = if d = c then none else find d m
  | [] => by simp [erase, find]
  | (k, n) :: rest => by
    by_cases hk : k = c
    · by_cases hd : d = c
      · rw [hd]
        simp [erase, hk, find_erase c c rest]
      · have hcd : ¬ c = d := fun h => hd h.symm
        simp [erase, find, hk, find_erase c d rest, hd, hcd]
    · by_cases hd : d = c
      · subst hd
        simp [erase, find, hk, find_erase d d rest]
      · simp [erase, find, hk, find_erase c d rest, hd]

theorem erase_of_count_eq_zero (c : Char) :
    ∀ m : List (Char × TrieNode V), count c m = 0 → erase c m = m
  | [], _ => rfl
  | (k, n) :: rest, h => by
    by_cases hk : k = c
    · simp [count, hk] at h
    · simp [count, hk] at h
      simp [erase, hk, erase_of_count_eq_zero c rest h]

theorem find_assign (c d : Char) (x : TrieNode V) :
    ∀ m : List (Char × TrieNode V),
      find d (assign c x m) = if d = c ∧ (find c m).isSome then some x else find d m
  | [] => by simp [assign, find]
  | (k, n) :: rest => by
    by_cases hk : k = c
    · by_cases hd : d = c
      · simp [assign, find, hk, hd]
      · have hcd : ¬ c = d := fun h => hd h.symm
        simp [assign, find, hk, hd, hcd]
    · by_cases hd : d = c
      · subst hd
        simp [assign, find, hk, find_assign d d x rest]
      · by_cases hkd : k = d
        · simp [assign, find, hk, hd, hkd]
        · simp [assign, find, hk, hd, hkd, find_assign c d x rest]

theorem erase_assign (c : Char) (x : TrieNode V) :
    ∀ m : List (Char × TrieNode V), erase c (assign c x m) = erase c m
  | [] => rfl
  | (k, n) :: rest => by
    by_cases hk : k = c
    · simp [assign, erase, hk]
    · simp [assign, erase, hk, erase_assign c x rest]

end Children

namespace TrieNode

variable {V : Type}

/-- The two outcomes of `InsertChildNode` on a node with children `cs`. -/
theorem InsertChildNode_mk (kc : Char) (e : Bool) (v : Option V)
    (cs : List (Char × TrieNode V)) (c : Char) (ch : TrieNode V) :
    (mk kc e v cs).InsertChildNode c ch =
      if ch.GetKeyChar = c ∧ Children.count c cs = 0 then
        (some ch, mk kc e v (cs ++ [(c, ch)]))
      else (none, mk kc e v cs) := by
  by_cases hk : ch.GetKeyChar = c
  · by_cases hc : Children.count c cs = 0
    · have hfind : Children.find c cs = none := Children.find_eq_none_iff_count.mpr hc
      simp [InsertChildNode, Children.try_emplace, children_, withChildren, key_char_,
        is_end_, value_, hk, hc, Children.find_append_singleton, hfind]
    · simp [InsertChildNode, Children.try_emplace, children_, withChildren, key_char_,
        is_end_, value_, hk, hc]
  · have hk2 : ¬ c = ch.GetKeyChar := fun h => hk h.symm
    simp [InsertChildNode, hk, hk2]

end TrieNode

section Claims

variable {V : Type}

/-- C11 (RemoveChildNode detaches exactly one edge): after `RemoveChildNode(c)` the
node has no child at `c`, the child at every other character is unchanged, key
character, end flag and value of the node are unchanged, and a node without a
child at `c` is entirely unchanged. -/
theorem C11_RemoveChildNode_detaches_exactly_one_edge (n : TrieNode V) (c : Char) :
    (n.RemoveChildNode c).HasChild c = false ∧
      (n.RemoveChildNode c).GetChildNode c = none ∧
      (∀ d : Char, d ≠ c → (n.RemoveChildNode c).GetChildNode d = n.GetChildNode d) ∧
      (n.RemoveChildNode c).GetKeyChar = n.GetKeyChar ∧
      (n.RemoveChildNode c).IsEndNode = n.IsEndNode ∧
      (n.RemoveChildNode c).value_ = n.value_ ∧
      (n.HasChild c = false → n.RemoveChildNode c = n) := by
  cases n with
  | mk kc e v cs =>
    refine ⟨?_, ?_, ?_, rfl, rfl, rfl, ?_⟩
    · simp [TrieNode.RemoveChildNode, TrieNode.HasChild, TrieNode.withChildren,
        TrieNode.children_, Children.count_erase_self]
    · simp [TrieNode.RemoveChildNode, TrieNode.GetChildNode, TrieNode.withChildren,
        TrieNode.children_, Children.find_erase]
    · intro d hd
      simp [TrieNode.RemoveChildNode, TrieNode.GetChildNode, TrieNode.withChildren,
        TrieNode.children_, Children.find_erase, hd]
    · intro h
      have hc : Children.count c cs = 0 := by
        simpa [TrieNode.HasChild, TrieNode.children_] using h
      simp [TrieNode.RemoveChildNode, TrieNode.withChildren, TrieNode.children_,
        TrieNode.key_char_, TrieNode.is_end_, TrieNode.value_,
        Children.erase_of_count_eq_zero c cs hc]

/-- Witness for C11: erasing the edge `a` of a node with children `a` and `b`
leaves exactly the child `b`; erasing the absent edge `z` changes nothing. -/
theorem C11_RemoveChildNode_detaches_exactly_one_edge_witness :
    (inner 'a' [('a', leaf 'a' 1), ('b', leaf 'b' 2)]).RemoveChildNode 'a' =
        inner 'a' [('b', leaf 'b' 2)] ∧
      (inner 'a' [('a', leaf 'a' 1), ('b', leaf 'b' 2)]).HasChild 'z' = false ∧
      (inner 'a' [('a', leaf 'a' 1), ('b', leaf 'b' 2)]).RemoveChildNode 'z' =
        inner 'a' [('a', leaf 'a' 1), ('b', leaf 'b' 2)] :=
  ⟨rfl, by decide,
    (C11_RemoveChildNode_detaches_exactly_one_edge
      (inner 'a' [('a', leaf 'a' 1), ('b', leaf 'b' 2)]) 'z').2.2.2.2.2.2 (by decide)⟩

/-- C12 (child lookup agrees with membership and with insertion): `GetChildNode(c)`
is null exactly when `HasChild(c)` is false, `HasChildren()` holds exactly when
`HasChild` holds for some character, and after a successful `InsertChildNode(c, ch)`
the returned pointer and `GetChildNode(c)` both designate `ch`. -/
theorem C12_child_lookup_agrees_with_membership_and_insertion
    (n : TrieNode V) (c : Char) (ch : TrieNode V) :
    (n.GetChildNode c = none ↔ n.HasChild c = false) ∧
      (n.HasChildren = true ↔ ∃ d : Char, n.HasChild d = true) ∧
      ((n.InsertChildNode c ch).1 ≠ none →
        (n.InsertChildNode c ch).1 = some ch ∧
        (n.InsertChildNode c ch).2.GetChildNode c = some ch) := by
  cases n with
  | mk kc e v cs =>
    refine ⟨?_, ?_, ?_⟩
    · simp [TrieNode.GetChildNode, TrieNode.HasChild, TrieNode.children_,
        Children.find_eq_none_iff_count]
    · cases cs with
      | nil => simp [TrieNode.HasChildren, TrieNode.HasChild, TrieNode.children_,
          Children.empty, Children.count]
      | cons p rest =>
        obtain ⟨k, x⟩ := p
        simp only [TrieNode.HasChildren, TrieNode.children_, Children.empty, List.isEmpty_cons,
          Bool.not_false, true_iff]
        exact ⟨k, by simp [TrieNode.HasChild, TrieNode.children_, Children.count]⟩
    · rw [TrieNode.InsertChildNode_mk]
      by_cases h : ch.GetKeyChar = c ∧ Children.count c cs = 0
      · have hfind : Children.find c cs = none := Children.find_eq_none_iff_count.mpr h.2
        simp [h, TrieNode.GetChildNode, TrieNode.children_, Children.find_append_singleton,
          hfind]
      · simp [h]

/-- Witness for C12: inserting the child `b` below a node whose only child is `a`
succeeds, and both the returned pointer and `GetChildNode('b')` designate it. -/
theorem C12_child_lookup_agrees_with_membership_and_insertion_witness :
    ((inner 'a' [('a', leaf 'a' 1)]).InsertChildNode 'b' (leaf 'b' 2)).1 = some (leaf 'b' 2) ∧
      ((inner 'a' [('a', leaf 'a' 1)]).InsertChildNode 'b' (leaf 'b' 2)).2.GetChildNode 'b' =
        some (leaf 'b' 2) :=
  (C12_child_lookup_agrees_with_membership_and_insertion
    (inner 'a' [('a', leaf 'a' 1)]) 'b' (leaf 'b' 2)).2.2
    (by
      rw [show ((inner 'a' [('a', leaf 'a' 1)]).InsertChildNode 'b' (leaf 'b' 2)).1 =
        some (leaf 'b' 2) from rfl]
      exact Option.some_ne_none _)

/-- C13 (a new trie is empty): the root of `Trie()` carries the character `'\0'`,
has no children and is not terminal, and `Remove(k)` on it returns false for
every key `k` and leaves it as it is. -/
theorem C13_new_trie_is_empty :
    (Trie.new : Trie V).root_.GetKeyChar = Char.ofNat 0 ∧
      (Trie.new : Trie V).root_.HasChildren = false ∧
      (Trie.new : Trie V).root_.children_ = [] ∧
      (Trie.new : Trie V).root_.IsEndNode = false ∧
      ∀ k : List Char, (Trie.new : Trie V).Remove k = some (false, Trie.new) := by
  refine ⟨rfl, rfl, rfl, rfl, ?_⟩
  intro k
  cases k with
  | nil => rfl
  | cons c rest =>
    have h : Trie.RemoveHelperFuel (rest.length + 1) (c :: rest) 0 (Trie.new : Trie V).root_ =
        some (false, (Trie.new : Trie V).root_) :=
      @Trie.RemoveHelperFuel_absent V rest.length (c :: rest) 0 _ c (by simp) rfl
    simp [Trie.Remove, Trie.RemoveHelper, h]

/-- C15 (move construction transfers the children): the node built by
`TrieNode(TrieNode &&src)` has the key character of `src` and exactly the children
`src` had, `src` is left without children (its other fields untouched), and the
new node is not terminal and carries no value, whatever `src` was. -/
theorem C15_move_construction_transfers_children (src : TrieNode V) :
    (TrieNode.moveFrom src).1.GetKeyChar = src.GetKeyChar ∧
      (TrieNode.moveFrom src).1.children_ = src.children_ ∧
      (TrieNode.moveFrom src).2.children_ = [] ∧
      (TrieNode.moveFrom src).2.HasChildren = false ∧
      (TrieNode.moveFrom src).1.IsEndNode = false ∧
      (TrieNode.moveFrom src).1.value_ = none ∧
      (TrieNode.moveFrom src).2.GetKeyChar = src.GetKeyChar ∧
      (TrieNode.moveFrom src).2.IsEndNode = src.IsEndNode ∧
      (TrieNode.moveFrom src).2.value_ = src.value_ := by
  cases src with
  | mk kc e v cs => exact ⟨rfl, rfl, rfl, rfl, rfl, rfl, rfl, rfl, rfl⟩

end Claims


/-! ## The bound on the nesting is never reached -/

namespace Trie

variable {V : Type}

/-- Any two bounds of at least `key.size() - idx` give the same result. -/
theorem RemoveHelperFuel_bound_irrelevant :
    ∀ (f1 f2 : Nat) (key : List Char) (idx : Nat) (prev : TrieNode V),
      idx < key.length → key.length ≤ idx + f1 → key.length ≤ idx + f2 →
      RemoveHelperFuel f1 key idx prev = RemoveHelperFuel f2 key idx prev
  | 0, _, key, idx, _, hlt, h1, _ => by omega
  | _ + 1, 0, key, idx, _, hlt, _, h2 => by omega
  | f1 + 1, f2 + 1, key, idx, prev, hlt, h1, h2 => by
    obtain ⟨k0, h0⟩ := getElem?_zero_of_lt hlt
    obtain ⟨ki, hi⟩ := getElem?_of_lt hlt
    cases hn : prev.GetChildNode k0 with
    | none => rw [RemoveHelperFuel_absent h0 hn, RemoveHelperFuel_absent h0 hn]
    | some n =>
      by_cases hend : key.length = idx + 1
      · cases hv : n.IsEndNode with
        | false =>
          rw [RemoveHelperFuel_end_plain h0 hn hend hv, RemoveHelperFuel_end_plain h0 hn hend hv]
        | true =>
          rw [RemoveHelperFuel_end_value h0 hi hn hend hv,
            RemoveHelperFuel_end_value h0 hi hn hend hv]
      · rw [RemoveHelperFuel_descend h0 hi hn hend, RemoveHelperFuel_descend h0 hi hn hend,
          RemoveHelperFuel_bound_irrelevant f1 f2 key (idx + 1) n (by omega) (by omega)
            (by omega)]

/-- The nested calls carry the indices `idx`, `idx + 1`, ... below `key.size()`,
and any two bounds of at least `key.size() - idx` list the same calls. -/
theorem RemoveHelperCalls_spec :
    ∀ (f1 f2 : Nat) (key : List Char) (idx : Nat) (prev : TrieNode V),
      idx < key.length → key.length ≤ idx + f1 → key.length ≤ idx + f2 →
      RemoveHelperCalls f1 key idx prev = RemoveHelperCalls f2 key idx prev ∧
      (RemoveHelperCalls f1 key idx prev).length ≤ key.length - idx ∧
      ∀ i ∈ RemoveHelperCalls f1 key idx prev, idx ≤ i ∧ i < key.length
  | 0, _, key, idx, _, hlt, h1, _ => by omega
  | _ + 1, 0, key, idx, _, hlt, _, h2 => by omega
  | f1 + 1, f2 + 1, key, idx, prev, hlt, h1, h2 => by
    obtain ⟨k0, h0⟩ := getElem?_zero_of_lt hlt
    by_cases hend : key.length = idx + 1
    · simp only [RemoveHelperCalls, h0, hend, if_true]
      refine ⟨trivial, by simp, ?_⟩
      intro i hi
      simp at hi
      omega
    · cases hn : prev.GetChildNode k0 with
      | none =>
        simp only [RemoveHelperCalls, h0, hend, if_false, hn]
        refine ⟨trivial, by simp; omega, ?_⟩
        intro i hi
        simp at hi
        omega
      | some n =>
        obtain ⟨ih1, ih2, ih3⟩ := RemoveHelperCalls_spec f1 f2 key (idx + 1) n (by omega)
          (by omega) (by omega)
        simp only [RemoveHelperCalls, h0, hend, if_false, hn]
        refine ⟨by rw [ih1], by simp only [List.length_cons]; omega, ?_⟩
        intro i hi
        rcases List.mem_cons.mp hi with h | h
        · omega
        · have := ih3 i h
          omega

end Trie

section Claims

variable {V : Type}

/-- C16 (RemoveHelper is total and in bounds): for a non-empty key the call
`RemoveHelper(key, 0, root)` made by `Remove` returns (no read outside the key, no
null child pointer dereferenced); it makes at most `key.size()` nested calls, each
with `idx < key.size()`; and allowing more nesting changes neither the result nor
the calls made. -/
theorem C16_RemoveHelper_total_and_in_bounds (t : Trie V) (key : List Char)
    (hkey : key ≠ []) :
    (∃ r, Trie.RemoveHelper key 0 t.root_ = some r) ∧
      (∀ fuel : Nat, key.length ≤ fuel →
        Trie.RemoveHelperFuel fuel key 0 t.root_ = Trie.RemoveHelper key 0 t.root_ ∧
        Trie.RemoveHelperCalls fuel key 0 t.root_ =
          Trie.RemoveHelperCalls key.length key 0 t.root_) ∧
      (Trie.RemoveHelperCalls key.length key 0 t.root_).length ≤ key.length ∧
      ∀ i ∈ Trie.RemoveHelperCalls key.length key 0 t.root_, i < key.length := by
  have hlt : 0 < key.length := List.length_pos.mpr hkey
  refine ⟨?_, ?_, ?_, ?_⟩
  · exact Trie.RemoveHelperFuel_isSome (key.length - 0) key 0 t.root_ hlt (by omega)
  · intro fuel hfuel
    exact ⟨Trie.RemoveHelperFuel_bound_irrelevant fuel (key.length - 0) key 0 t.root_ hlt
        (by omega) (by omega),
      (Trie.RemoveHelperCalls_spec fuel key.length key 0 t.root_ hlt (by omega) (by omega)).1⟩
  · have := (Trie.RemoveHelperCalls_spec key.length key.length key 0 t.root_ hlt (by omega)
      (by omega)).2.1
    omega
  · intro i hi
    exact ((Trie.RemoveHelperCalls_spec key.length key.length key 0 t.root_ hlt (by omega)
      (by omega)).2.2 i hi).2

/-- Witness for C16: on the trie storing "aaa" the call for the key "aba" returns
after the three nested calls with `idx` 0, 1 and 2. -/
theorem C16_RemoveHelper_total_and_in_bounds_witness :
    Trie.RemoveHelperCalls 3 ['a', 'b', 'a'] 0 trie_aaa.root_ = [0, 1, 2] ∧
      ((∃ r, Trie.RemoveHelper ['a', 'b', 'a'] 0 trie_aaa.root_ = some r) ∧
      (∀ fuel : Nat, ['a', 'b', 'a'].length ≤ fuel →
        Trie.RemoveHelperFuel fuel ['a', 'b', 'a'] 0 trie_aaa.root_ =
          Trie.RemoveHelper ['a', 'b', 'a'] 0 trie_aaa.root_ ∧
        Trie.RemoveHelperCalls fuel ['a', 'b', 'a'] 0 trie_aaa.root_ =
          Trie.RemoveHelperCalls ['a', 'b', 'a'].length ['a', 'b', 'a'] 0 trie_aaa.root_) ∧
      (Trie.RemoveHelperCalls ['a', 'b', 'a'].length ['a', 'b', 'a'] 0 trie_aaa.root_).length ≤
        ['a', 'b', 'a'].length ∧
      ∀ i ∈ Trie.RemoveHelperCalls ['a', 'b', 'a'].length ['a', 'b', 'a'] 0 trie_aaa.root_,
        i < ['a', 'b', 'a'].length) :=
  ⟨by decide, C16_RemoveHelper_total_and_in_bounds trie_aaa ['a', 'b', 'a'] (by decide)⟩

end Claims


/-! ## Paths, dead nodes and well-formedness under the map operations -/

namespace TrieNode

variable {V : Type}

theorem valueAt_nil (n : TrieNode V) :
    n.valueAt [] = if n.IsEndNode then some n.value_ else none := rfl

theorem valueAt_cons (n : TrieNode V) (c : Char) (p : List Char) :
    n.valueAt (c :: p) = match n.GetChildNode c with
      | some m => m.valueAt p
      | none => none := by
  simp only [valueAt, descend]
  cases n.GetChildNode c <;> rfl

theorem wellFormedIn_find {c : Char} {n : TrieNode V} :
    ∀ {m : List (Char × TrieNode V)}, wellFormedIn m = true → Children.find c m = some n →
      n.key_char_ = c ∧ n.wellFormed = true
  | [], _, h => by simp [Children.find] at h
  | (k, old) :: rest, hm, h => by
    simp only [wellFormedIn, Bool.and_eq_true, decide_eq_true_eq] at hm
    by_cases hk : k = c
    · simp [Children.find, hk] at h
      subst h
      exact ⟨hm.1.1.1.trans hk, hm.1.2⟩
    · simp [Children.find, hk] at h
      exact wellFormedIn_find hm.2 h

theorem wellFormed_child {prev n : TrieNode V} {c : Char}
    (hp : prev.wellFormed = true) (h : prev.GetChildNode c = some n) :
    n.key_char_ = c ∧ n.wellFormed = true := by
  cases prev with
  | mk kc e v cs =>
    simp only [wellFormed] at hp
    exact wellFormedIn_find hp h

theorem noDeadIn_erase (c : Char) :
    ∀ m : List (Char × TrieNode V), noDeadIn m = true → noDeadIn (Children.erase c m) = true
  | [], _ => rfl
  | (k, n) :: rest, h => by
    simp only [noDeadIn, Bool.and_eq_true] at h
    by_cases hk : k = c
    · simp [Children.erase, hk, noDeadIn_erase c rest h.2]
    · simp [Children.erase, hk, noDeadIn, h.1.1, h.1.2, noDeadIn_erase c rest h.2]

theorem noDeadIn_assign (c : Char) (x : TrieNode V) (hx : x.isDead = false)
    (hxb : x.noDeadBelow = true) :
    ∀ m : List (Char × TrieNode V), noDeadIn m = true → noDeadIn (Children.assign c x m) = true
  | [], _ => rfl
  | (k, n) :: rest, h => by
    simp only [noDeadIn, Bool.and_eq_true] at h
    by_cases hk : k = c
    · simp [Children.assign, hk, noDeadIn, hx, hxb, h.2]
    · simp [Children.assign, hk, noDeadIn, h.1.1, h.1.2, noDeadIn_assign c x hx hxb rest h.2]

theorem noDeadIn_append (c : Char) (x : TrieNode V) (hx : x.isDead = false)
    (hxb : x.noDeadBelow = true) :
    ∀ m : List (Char × TrieNode V), noDeadIn m = true → noDeadIn (m ++ [(c, x)]) = true
  | [], _ => by simp [noDeadIn, hx, hxb]
  | (k, n) :: rest, h => by
    simp only [noDeadIn, Bool.and_eq_true] at h
    simp [noDeadIn, h.1.1, h.1.2, noDeadIn_append c x hx hxb rest h.2]

end TrieNode


/-! ## The node left behind by one call of `RemoveHelper` -/

namespace TrieNode

variable {V : Type}

/-- After the recursive call has turned the child under `k0` into `n1` and the
compaction has run: the fields of the node are unchanged, the edge `ki` is gone
when `n1` is dead, the edge `k0` leads to `n1`, every other edge is as before. -/
theorem descend_result {prev n n1 r : TrieNode V} {k0 ki : Char}
    (hn : prev.GetChildNode k0 = some n)
    (hr : r = if n1.isDead then (prev.storeChild k0 n1).RemoveChildNode ki
      else prev.storeChild k0 n1) :
    r.key_char_ = prev.key_char_ ∧ r.is_end_ = prev.is_end_ ∧ r.value_ = prev.value_ ∧
      ∀ d : Char, r.GetChildNode d =
        if n1.isDead = true ∧ d = ki then none
        else if d = k0 then some n1 else prev.GetChildNode d := by
  cases prev with
  | mk kc e v cs =>
    simp only [GetChildNode, children_] at hn
    by_cases hd : n1.isDead = true
    · subst hr
      refine ⟨by simp [hd, storeChild, RemoveChildNode, withChildren, key_char_],
        by simp [hd, storeChild, RemoveChildNode, withChildren, is_end_],
        by simp [hd, storeChild, RemoveChildNode, withChildren, value_], ?_⟩
      intro d
      by_cases hdk : d = ki
      · simp [hd, hdk, storeChild, RemoveChildNode, withChildren, children_, GetChildNode,
          Children.find_erase]
      · simp [hd, hdk, storeChild, RemoveChildNode, withChildren, children_, GetChildNode,
          Children.find_erase, Children.find_assign, hn]
    · subst hr
      refine ⟨by simp [hd, storeChild, withChildren, key_char_],
        by simp [hd, storeChild, withChildren, is_end_],
        by simp [hd, storeChild, withChildren, value_], ?_⟩
      intro d
      simp [hd, storeChild, withChildren, children_, GetChildNode, Children.find_assign, hn]

/-- After the terminal child `n` under `k0` has been moved from, the edge `ki`
erased and the moved copy offered back under `ki`: the fields of the node are
unchanged; the edge `ki` leads to the moved copy when `ki = k0` and the copy has
children, and is absent otherwise; for `k0 ≠ ki` the edge `k0` leads to the
moved-from node; every other edge is as before. -/
theorem end_value_result {prev n r : TrieNode V} {k0 ki : Char}
    (hn : prev.GetChildNode k0 = some n) (hkc : n.key_char_ = k0)
    (hr : r = if (moveFrom n).1.HasChildren then
        (((prev.storeChild k0 (moveFrom n).2).RemoveChildNode ki).InsertChildNode ki
          (moveFrom n).1).2
      else (prev.storeChild k0 (moveFrom n).2).RemoveChildNode ki) :
    r.key_char_ = prev.key_char_ ∧ r.is_end_ = prev.is_end_ ∧ r.value_ = prev.value_ ∧
      ∀ d : Char, r.GetChildNode d =
        if d = ki then (if ki = k0 ∧ n.HasChildren = true then some (moveFrom n).1 else none)
        else if d = k0 then some (moveFrom n).2 else prev.GetChildNode d := by
  cases prev with
  | mk kc e v cs =>
    simp only [GetChildNode, children_] at hn
    have hmk : (moveFrom n).1.GetKeyChar = k0 := by
      cases n with
      | mk a b c d => simpa [moveFrom, GetKeyChar, key_char_] using hkc
    have hmc : (moveFrom n).1.HasChildren = n.HasChildren := by
      cases n with
      | mk a b c d => rfl
    have hstep : ((mk kc e v cs).storeChild k0 (moveFrom n).2).RemoveChildNode ki =
        mk kc e v (Children.erase ki (Children.assign k0 (moveFrom n).2 cs)) := rfl
    rw [hstep, InsertChildNode_mk, hmk, hmc] at hr
    by_cases hch : n.HasChildren = true
    · by_cases hki : k0 = ki
      · subst hki
        have hcount : Children.count k0
            (Children.erase k0 (Children.assign k0 (moveFrom n).2 cs)) = 0 :=
          Children.count_erase_self k0 _
        rw [if_pos hch, if_pos ⟨rfl, hcount⟩] at hr
        subst hr
        refine ⟨rfl, rfl, rfl, ?_⟩
        intro d
        by_cases hdk : d = k0
        · subst hdk
          simp [GetChildNode, children_, Children.find_append_singleton, Children.find_erase,
            hch]
        · have hdk2 : ¬ k0 = d := fun h => hdk h.symm
          simp only [GetChildNode, children_, Children.find_append_singleton,
            Children.find_erase, Children.find_assign, hdk, hdk2, if_false, false_and]
          cases Children.find d cs <;> rfl
      · have hki2 : ¬ ki = k0 := fun h => hki h.symm
        rw [if_pos hch, if_neg (fun h => hki h.1)] at hr
        subst hr
        refine ⟨rfl, rfl, rfl, ?_⟩
        intro d
        by_cases hdk : d = ki
        · simp [GetChildNode, children_, Children.find_erase, hdk, hki2]
        · simp [GetChildNode, children_, Children.find_erase, Children.find_assign, hdk, hn]
    · rw [if_neg hch] at hr
      subst hr
      refine ⟨rfl, rfl, rfl, ?_⟩
      intro d
      by_cases hdk : d = ki
      · simp [GetChildNode, children_, Children.find_erase, hdk, hch]
      · simp [GetChildNode, children_, Children.find_erase, Children.find_assign, hdk, hn]

end TrieNode


/-! ## `RemoveHelper` never stores anything new -/

namespace TrieNode

variable {V : Type}

theorem valueAt_of_fields {a b : TrieNode V} (he : a.is_end_ = b.is_end_)
    (hv : a.value_ = b.value_) : a.valueAt [] = b.valueAt [] := by
  simp [valueAt_nil, IsEndNode, he, hv]

theorem valueAt_moveFrom_fst (n : TrieNode V) :
    (moveFrom n).1.valueAt [] = none ∧
      ∀ (e : Char) (q : List Char), (moveFrom n).1.valueAt (e :: q) = n.valueAt (e :: q) := by
  cases n with
  | mk a b c d => exact ⟨rfl, fun e q => by simp [valueAt_cons, moveFrom, GetChildNode, children_]⟩

theorem valueAt_moveFrom_snd (n : TrieNode V) :
    (moveFrom n).2.valueAt [] = n.valueAt [] ∧
      ∀ (e : Char) (q : List Char), (moveFrom n).2.valueAt (e :: q) = none := by
  cases n with
  | mk a b c d =>
    exact ⟨rfl, fun e q => by
      simp [valueAt_cons, moveFrom, withChildren, GetChildNode, children_, Children.find]⟩

theorem valueAt_of_no_children {n : TrieNode V} (h : n.HasChildren = false) (e : Char)
    (q : List Char) : n.valueAt (e :: q) = none := by
  cases n with
  | mk a b c d =>
    cases d with
    | nil => simp [valueAt_cons, GetChildNode, children_, Children.find]
    | cons x rest => simp [HasChildren, children_, Children.empty] at h

end TrieNode

namespace Trie

variable {V : Type}

/-- On a well-formed subtree, whatever a call of `RemoveHelper` leaves stored below
`*prev` was stored there before, with the same payload; the fields of `*prev`
itself are untouched. -/
theorem RemoveHelperFuel_valueAt_sub :
    ∀ (fuel : Nat) (key : List Char) (idx : Nat) (prev : TrieNode V) (r : Bool × TrieNode V),
      idx < key.length → prev.wellFormed = true →
      RemoveHelperFuel fuel key idx prev = some r →
      r.2.is_end_ = prev.is_end_ ∧ r.2.value_ = prev.value_ ∧
        ∀ p : List Char, r.2.valueAt p = none ∨ r.2.valueAt p = prev.valueAt p
  | 0, key, idx, _, _, _, _, h => by simp [RemoveHelperFuel] at h
  | fuel + 1, key, idx, prev, r, hlt, hwf, h => by
    obtain ⟨k0, h0⟩ := getElem?_zero_of_lt hlt
    obtain ⟨ki, hi⟩ := getElem?_of_lt hlt
    cases hn : prev.GetChildNode k0 with
    | none =>
      rw [RemoveHelperFuel_absent h0 hn] at h
      cases h
      exact ⟨rfl, rfl, fun p => Or.inr rfl⟩
    | some n =>
      have hchild := TrieNode.wellFormed_child hwf hn
      by_cases hend : key.length = idx + 1
      · cases hv : n.IsEndNode with
        | false =>
          rw [RemoveHelperFuel_end_plain h0 hn hend hv] at h
          cases h
          exact ⟨rfl, rfl, fun p => Or.inr rfl⟩
        | true =>
          rw [RemoveHelperFuel_end_value h0 hi hn hend hv] at h
          cases h
          obtain ⟨_, he, hva, hg⟩ := @TrieNode.end_value_result V prev n _ k0 ki hn hchild.1 rfl
          refine ⟨he, hva, ?_⟩
          intro p
          cases p with
          | nil => exact Or.inr (TrieNode.valueAt_of_fields he hva)
          | cons d q =>
            have hgd := hg d
            by_cases hdk : d = ki
            · by_cases hc : ki = k0 ∧ n.HasChildren = true
              · rw [if_pos hdk, if_pos hc] at hgd
                rw [TrieNode.valueAt_cons, hgd]
                dsimp only
                cases q with
                | nil => exact Or.inl (TrieNode.valueAt_moveFrom_fst n).1
                | cons e q2 =>
                  right
                  rw [(TrieNode.valueAt_moveFrom_fst n).2 e q2, hdk, hc.1,
                    TrieNode.valueAt_cons prev, hn]
              · rw [if_pos hdk, if_neg hc] at hgd
                rw [TrieNode.valueAt_cons, hgd]
                exact Or.inl rfl
            · by_cases hd0 : d = k0
              · rw [if_neg hdk, if_pos hd0] at hgd
                rw [TrieNode.valueAt_cons, hgd]
                dsimp only
                cases q with
                | nil =>
                  right
                  rw [(TrieNode.valueAt_moveFrom_snd n).1, hd0, TrieNode.valueAt_cons prev, hn]
                | cons e q2 => exact Or.inl ((TrieNode.valueAt_moveFrom_snd n).2 e q2)
              · rw [if_neg hdk, if_neg hd0] at hgd
                right
                rw [TrieNode.valueAt_cons, hgd, TrieNode.valueAt_cons prev]
      · rw [RemoveHelperFuel_descend h0 hi hn hend] at h
        cases hr : RemoveHelperFuel fuel key (idx + 1) n with
        | none => simp [hr] at h
        | some r1 =>
          rw [hr] at h
          cases h
          obtain ⟨_, _, ih⟩ :=
            RemoveHelperFuel_valueAt_sub fuel key (idx + 1) n r1 (by omega) hchild.2 hr
          obtain ⟨_, he, hva, hg⟩ := @TrieNode.descend_result V prev n r1.2 _ k0 ki hn rfl
          refine ⟨he, hva, ?_⟩
          intro p
          cases p with
          | nil => exact Or.inr (TrieNode.valueAt_of_fields he hva)
          | cons d q =>
            have hgd := hg d
            by_cases hdk : r1.2.isDead = true ∧ d = ki
            · rw [if_pos hdk] at hgd
              rw [TrieNode.valueAt_cons, hgd]
              exact Or.inl rfl
            · by_cases hd0 : d = k0
              · rw [if_neg hdk, if_pos hd0] at hgd
                rw [TrieNode.valueAt_cons, hgd, hd0, TrieNode.valueAt_cons prev, hn]
                exact ih q
              · rw [if_neg hdk, if_neg hd0] at hgd
                right
                rw [TrieNode.valueAt_cons, hgd, TrieNode.valueAt_cons prev]

end Trie


/-! ## Keys made of one repeated character -/

namespace TrieNode

variable {V : Type}

/-- Compaction with lookup and erase under the same character leaves no dead node. -/
theorem descend_noDead {prev n1 r : TrieNode V} {c : Char}
    (hnd : prev.noDeadBelow = true) (hn1 : n1.noDeadBelow = true)
    (hr : r = if n1.isDead then (prev.storeChild c n1).RemoveChildNode c
      else prev.storeChild c n1) :
    r.noDeadBelow = true := by
  cases prev with
  | mk kc e v cs =>
    simp only [noDeadBelow] at hnd
    by_cases hd : n1.isDead = true
    · rw [if_pos hd] at hr
      subst hr
      simp only [storeChild, RemoveChildNode, withChildren, children_, noDeadBelow,
        Children.erase_assign]
      exact noDeadIn_erase c cs hnd
    · rw [if_neg hd] at hr
      subst hr
      simp only [storeChild, withChildren, children_, noDeadBelow]
      exact noDeadIn_assign c n1 (by simpa using hd) hn1 cs hnd

/-- Removing the terminal child under `c`, or downgrading it when it has children,
leaves no dead node below the parent. -/
theorem end_value_noDead {prev n r : TrieNode V} {c : Char}
    (hnd : prev.noDeadBelow = true) (hn : prev.GetChildNode c = some n)
    (hkc : n.key_char_ = c)
    (hr : r = if (moveFrom n).1.HasChildren then
        (((prev.storeChild c (moveFrom n).2).RemoveChildNode c).InsertChildNode c
          (moveFrom n).1).2
      else (prev.storeChild c (moveFrom n).2).RemoveChildNode c) :
    r.noDeadBelow = true := by
  have hnb := (noDeadBelow_child hnd hn).2
  cases prev with
  | mk kc e v cs =>
    simp only [noDeadBelow] at hnd
    have hmk : (moveFrom n).1.GetKeyChar = c := by
      cases n with
      | mk a b c d => simpa [moveFrom, GetKeyChar, key_char_] using hkc
    have hstep : ((mk kc e v cs).storeChild c (moveFrom n).2).RemoveChildNode c =
        mk kc e v (Children.erase c cs) := by
      simp [storeChild, RemoveChildNode, withChildren, children_, key_char_, is_end_, value_,
        Children.erase_assign]
    rw [hstep, InsertChildNode_mk, hmk] at hr
    by_cases hch : (moveFrom n).1.HasChildren = true
    · rw [if_pos hch, if_pos ⟨rfl, Children.count_erase_self c cs⟩] at hr
      subst hr
      simp only [noDeadBelow]
      refine noDeadIn_append c _ ?_ ?_ _ (noDeadIn_erase c cs hnd)
      · simp [isDead, hch]
      · cases n with
        | mk a b c d => simpa [moveFrom, noDeadBelow, children_] using hnb
    · rw [if_neg hch] at hr
      subst hr
      simp only [noDeadBelow]
      exact noDeadIn_erase c cs hnd

end TrieNode


namespace Trie

variable {V : Type}

theorem getElem?_of_all_eq {key : List Char} {c : Char} (hall : ∀ x ∈ key, x = c) {i : Nat}
    (hi : i < key.length) : key[i]? = some c := by
  rw [List.getElem?_eq_getElem hi]
  exact congrArg some (hall _ (List.getElem_mem hi))

theorem valueAt_absent {prev : TrieNode V} {c : Char} (hn : prev.GetChildNode c = none)
    (q : List Char) : prev.valueAt (c :: q) = none := by
  rw [TrieNode.valueAt_cons, hn]

theorem valueAt_present {prev n : TrieNode V} {c : Char} (hn : prev.GetChildNode c = some n)
    (q : List Char) : prev.valueAt (c :: q) = n.valueAt q := by
  rw [TrieNode.valueAt_cons, hn]

theorem valueAt_nil_isSome (n : TrieNode V) : (n.valueAt []).isSome = n.IsEndNode := by
  rw [TrieNode.valueAt_nil]
  cases n.IsEndNode <;> rfl

theorem RemoveHelperFuel_end_value_ex {fuel : Nat} {key : List Char} {idx : Nat}
    {prev n : TrieNode V} {k0 ki : Char} (h0 : key[0]? = some k0) (hi : key[idx]? = some ki)
    (hn : prev.GetChildNode k0 = some n) (hend : key.length = idx + 1)
    (hv : n.IsEndNode = true) :
    ∃ r : TrieNode V, RemoveHelperFuel (fuel + 1) key idx prev = some (true, r) ∧
      r = if (TrieNode.moveFrom n).1.HasChildren then
          (((prev.storeChild k0 (TrieNode.moveFrom n).2).RemoveChildNode ki).InsertChildNode ki
            (TrieNode.moveFrom n).1).2
        else (prev.storeChild k0 (TrieNode.moveFrom n).2).RemoveChildNode ki :=
  ⟨_, RemoveHelperFuel_end_value h0 hi hn hend hv, rfl⟩

theorem RemoveHelperFuel_descend_ex {fuel : Nat} {key : List Char} {idx : Nat}
    {prev n : TrieNode V} {k0 ki : Char} {b : Bool} {n1 : TrieNode V}
    (h0 : key[0]? = some k0) (hi : key[idx]? = some ki)
    (hn : prev.GetChildNode k0 = some n) (hend : key.length ≠ idx + 1)
    (hrec : RemoveHelperFuel fuel key (idx + 1) n = some (b, n1)) :
    ∃ r : TrieNode V, RemoveHelperFuel (fuel + 1) key idx prev = some (b, r) ∧
      r = if n1.isDead then (prev.storeChild k0 n1).RemoveChildNode ki
        else prev.storeChild k0 n1 := by
  refine ⟨_, ?_, rfl⟩
  rw [RemoveHelperFuel_descend h0 hi hn hend, hrec]
  rfl

/-- On a key that repeats one character `c`, with `m + 1` characters left, a call of
`RemoveHelper` on a well-formed subtree without dead nodes reports whether the
remaining key is stored below `*prev`, removes exactly that key, keeps every
other stored path with its payload, and leaves no dead node. -/
theorem RemoveHelperFuel_same_char {c : Char} {key : List Char} (hall : ∀ x ∈ key, x = c) :
    ∀ (m fuel idx : Nat) (prev : TrieNode V), key.length = idx + m + 1 → m + 1 ≤ fuel →
      prev.noDeadBelow = true → prev.wellFormed = true →
      ∃ prev1 : TrieNode V,
        RemoveHelperFuel fuel key idx prev =
          some ((prev.valueAt (List.replicate (m + 1) c)).isSome, prev1) ∧
        prev1.is_end_ = prev.is_end_ ∧ prev1.value_ = prev.value_ ∧
        prev1.noDeadBelow = true ∧
        ∀ (d : Char) (q : List Char), prev1.valueAt (d :: q) =
          if d :: q = List.replicate (m + 1) c then none else prev.valueAt (d :: q)
  | _, 0, _, _, _, hf, _, _ => by omega
  | 0, fuel + 1, idx, prev, hlen, _, hnd, hwf => by
    have hlt : idx < key.length := by omega
    have h0 : key[0]? = some c := getElem?_of_all_eq hall (by omega)
    have hi : key[idx]? = some c := getElem?_of_all_eq hall hlt
    have hend : key.length = idx + 1 := by omega
    have hrep : List.replicate (0 + 1) c = [c] := rfl
    rw [hrep]
    cases hn : prev.GetChildNode c with
    | none =>
      refine ⟨prev, ?_, rfl, rfl, hnd, ?_⟩
      · rw [RemoveHelperFuel_absent h0 hn, valueAt_absent hn]
        rfl
      · intro d q
        by_cases hp : d :: q = [c]
        · rw [if_pos hp, hp, valueAt_absent hn]
        · rw [if_neg hp]
    | some n =>
      have hchild := TrieNode.wellFormed_child hwf hn
      cases hv : n.IsEndNode with
      | false =>
        refine ⟨prev, ?_, rfl, rfl, hnd, ?_⟩
        · rw [RemoveHelperFuel_end_plain h0 hn hend hv, valueAt_present hn, valueAt_nil_isSome,
            hv]
        · intro d q
          by_cases hp : d :: q = [c]
          · rw [if_pos hp, hp, valueAt_present hn, TrieNode.valueAt_nil, hv]
            rfl
          · rw [if_neg hp]
      | true =>
        obtain ⟨r, hres, hr⟩ :=
          @RemoveHelperFuel_end_value_ex V fuel key idx prev n c c h0 hi hn hend hv
        obtain ⟨_, he, hva, hg⟩ := TrieNode.end_value_result hn hchild.1 hr
        refine ⟨r, ?_, he, hva, TrieNode.end_value_noDead hnd hn hchild.1 hr, ?_⟩
        · rw [hres, valueAt_present hn, valueAt_nil_isSome, hv]
        · intro d q
          by_cases hdc : d = c
          · have hgd := hg c
            rw [if_pos (rfl : c = c)] at hgd
            rw [hdc]
            by_cases hch : n.HasChildren = true
            · rw [if_pos ⟨(rfl : c = c), hch⟩] at hgd
              rw [TrieNode.valueAt_cons, hgd]
              dsimp only
              cases q with
              | nil => rw [if_pos rfl, (TrieNode.valueAt_moveFrom_fst n).1]
              | cons e q2 =>
                rw [if_neg (by simp), (TrieNode.valueAt_moveFrom_fst n).2 e q2,
                  valueAt_present hn]
            · rw [if_neg (fun h => hch h.2)] at hgd
              rw [TrieNode.valueAt_cons, hgd]
              dsimp only
              cases q with
              | nil => rw [if_pos rfl]
              | cons e q2 =>
                rw [if_neg (by simp), valueAt_present hn,
                  TrieNode.valueAt_of_no_children (by simpa using hch)]
          · have hgd := hg d
            rw [if_neg hdc, if_neg hdc] at hgd
            rw [if_neg (by simp [hdc]), TrieNode.valueAt_cons, hgd, TrieNode.valueAt_cons prev]
  | m + 1, fuel + 1, idx, prev, hlen, hf, hnd, hwf => by
    have hlt : idx < key.length := by omega
    have h0 : key[0]? = some c := getElem?_of_all_eq hall (by omega)
    have hi : key[idx]? = some c := getElem?_of_all_eq hall hlt
    have hend : key.length ≠ idx + 1 := by omega
    have hrep : List.replicate (m + 1 + 1) c = c :: List.replicate (m + 1) c := rfl
    rw [hrep]
    cases hn : prev.GetChildNode c with
    | none =>
      refine ⟨prev, ?_, rfl, rfl, hnd, ?_⟩
      · rw [RemoveHelperFuel_absent h0 hn, valueAt_absent hn]
        rfl
      · intro d q
        by_cases hp : d :: q = c :: List.replicate (m + 1) c
        · rw [if_pos hp, hp, valueAt_absent hn]
        · rw [if_neg hp]
    | some n =>
      have hchild := TrieNode.wellFormed_child hwf hn
      have hnchild := TrieNode.noDeadBelow_child hnd hn
      obtain ⟨n1, hrec, he1, hv1, hnd1, hval1⟩ :=
        RemoveHelperFuel_same_char hall m fuel (idx + 1) n (by omega) (by omega) hnchild.2
          hchild.2
      obtain ⟨r, hres, hr⟩ := RemoveHelperFuel_descend_ex h0 hi hn hend hrec
      obtain ⟨_, he, hva, hg⟩ := TrieNode.descend_result hn hr
      refine ⟨r, ?_, he, hva, TrieNode.descend_noDead hnd hnd1 hr, ?_⟩
      · rw [hres, valueAt_present hn]
      · intro d q
        by_cases hdc : d = c
        · have hgd := hg c
          rw [hdc]
          have hroot : n1.valueAt [] = n.valueAt [] := TrieNode.valueAt_of_fields he1 hv1
          by_cases hdead : n1.isDead = true
          · rw [if_pos ⟨hdead, rfl⟩] at hgd
            rw [TrieNode.valueAt_cons, hgd]
            dsimp only
            by_cases hq : q = List.replicate (m + 1) c
            · rw [if_pos (by rw [hq])]
            · rw [if_neg (by simpa using hq), valueAt_present hn]
              have hd2 := hdead
              simp only [TrieNode.isDead, Bool.and_eq_true, Bool.not_eq_true'] at hd2
              cases q with
              | nil =>
                rw [← hroot, TrieNode.valueAt_nil, hd2.2]
                rfl
              | cons e q2 =>
                have := hval1 e q2
                rw [if_neg hq, TrieNode.valueAt_of_no_children hd2.1] at this
                exact this
          · rw [if_neg (fun h => hdead h.1), if_pos rfl] at hgd
            rw [TrieNode.valueAt_cons, hgd]
            dsimp only
            cases q with
            | nil => rw [if_neg (by simp), valueAt_present hn, hroot]
            | cons e q2 =>
              rw [hval1 e q2, valueAt_present hn]
              by_cases hq : e :: q2 = List.replicate (m + 1) c
              · rw [if_pos hq, if_pos (by rw [hq])]
              · rw [if_neg hq, if_neg (by simpa using hq)]
        · have hgd := hg d
          have hne : ¬ (n1.isDead = true ∧ d = c) := fun h => hdc h.2
          rw [if_neg hne, if_neg hdc] at hgd
          rw [if_neg (by simp [hdc]), TrieNode.valueAt_cons, hgd, TrieNode.valueAt_cons prev]

end Trie


/-! ## Stored keys in terms of `valueAt` -/

namespace Trie

variable {V : Type}

theorem isStored_eq_valueAt (t : Trie V) (k : List Char) :
    t.isStored k = (!k.isEmpty && (t.root_.valueAt k).isSome) := by
  simp only [isStored, TrieNode.valueAt]
  cases t.root_.descend k with
  | none => rfl
  | some m => cases hm : m.IsEndNode <;> simp [hm]

theorem storedValue_eq_valueAt (t : Trie V) (k : List Char) :
    t.storedValue k = if k.isEmpty then none else (t.root_.valueAt k).join := by
  cases k with
  | nil => simp [storedValue, isStored]
  | cons d q =>
    cases hdesc : t.root_.descend (d :: q) with
    | none => simp [storedValue, isStored, TrieNode.valueAt, hdesc]
    | some m =>
      cases hm : m.IsEndNode <;> simp [storedValue, isStored, TrieNode.valueAt, hdesc, hm]

/-- For a non-empty key `Remove` is the outermost call of `RemoveHelper`. -/
theorem Remove_cons (t : Trie V) (c : Char) (rest : List Char) :
    t.Remove (c :: rest) =
      (RemoveHelperFuel (rest.length + 1) (c :: rest) 0 t.root_).bind fun res =>
        some (res.1, ⟨res.2⟩) := by
  simp [Remove, RemoveHelper]

end Trie

section Claims

variable {V : Type}

/-- C17 (Remove is exact on single-character-alphabet keys): on a well-formed trie
without dead nodes and a non-empty key all of whose characters equal its first
character, `Remove(key)` returns true exactly when the key is stored; afterwards
the stored keys are the former ones minus `key`, every remaining key has its
former value, and the trie has no dead node. -/
theorem C17_Remove_exact_on_repeated_character_keys (t : Trie V) (key : List Char)
    (hkey : key ≠ []) (hall : ∀ x ∈ key, key.head? = some x)
    (hnd : t.noDeadNode = true) (hwf : t.wellFormed = true) :
    ∃ t1 : Trie V, t.Remove key = some (t.isStored key, t1) ∧
      (∀ k : List Char, t1.isStored k = (decide (k ≠ key) && t.isStored k)) ∧
      (∀ k : List Char, t1.storedValue k = if k = key then none else t.storedValue k) ∧
      t1.noDeadNode = true := by
  cases key with
  | nil => exact absurd rfl hkey
  | cons c rest =>
    have hall2 : ∀ x ∈ c :: rest, x = c := by
      intro x hx
      have := hall x hx
      simp only [List.head?_cons, Option.some.injEq] at this
      exact this.symm
    have hrep : c :: rest = List.replicate (rest.length + 1) c :=
      List.eq_replicate_iff.mpr ⟨rfl, hall2⟩
    obtain ⟨prev1, hres, _, _, hnd1, hval⟩ :=
      Trie.RemoveHelperFuel_same_char hall2 rest.length (rest.length + 1) 0 t.root_
        (by simp) (by omega) hnd hwf
    rw [← hrep] at hres hval
    refine ⟨⟨prev1⟩, ?_, ?_, ?_, hnd1⟩
    · rw [Trie.Remove_cons, hres, Trie.isStored_eq_valueAt]
      rfl
    · intro k
      rw [Trie.isStored_eq_valueAt, Trie.isStored_eq_valueAt]
      cases k with
      | nil => simp
      | cons d q =>
        rw [hval d q]
        by_cases hk : d :: q = c :: rest
        · rw [if_pos hk]
          simp [hk]
        · rw [if_neg hk]
          simp [hk]
    · intro k
      rw [Trie.storedValue_eq_valueAt, Trie.storedValue_eq_valueAt]
      cases k with
      | nil => simp
      | cons d q =>
        rw [hval d q]
        by_cases hk : d :: q = c :: rest
        · rw [if_pos hk, if_pos hk]
          rfl
        · rw [if_neg hk, if_neg hk]

/-- Witness for C17: in the trie storing "aa" and "ab", `Remove("aa")` returns true
and leaves the trie storing only "ab", with its value 2. -/
theorem C17_Remove_exact_on_repeated_character_keys_witness :
    trie_aa_ab.Remove ['a', 'a'] = some (true, trieOf [('a', inner 'a' [('b', leaf 'b' 2)])]) ∧
      ∃ t1 : Trie Nat, trie_aa_ab.Remove ['a', 'a'] = some (trie_aa_ab.isStored ['a', 'a'], t1) ∧
        (∀ k : List Char, t1.isStored k = (decide (k ≠ ['a', 'a']) && trie_aa_ab.isStored k)) ∧
        (∀ k : List Char, t1.storedValue k =
          if k = ['a', 'a'] then none else trie_aa_ab.storedValue k) ∧
        t1.noDeadNode = true :=
  ⟨rfl, C17_Remove_exact_on_repeated_character_keys trie_aa_ab ['a', 'a'] (by decide)
    (by decide) (by decide) (by decide)⟩

/-- C18 (Remove never adds a key): on a well-formed trie `Remove` returns, and every
key stored after the call was stored before it, with the same value, whatever the
call returns. -/
theorem C18_Remove_never_adds_a_key (t : Trie V) (key : List Char)
    (hwf : t.wellFormed = true) :
    (∃ r, t.Remove key = some r) ∧
      ∀ (b : Bool) (t1 : Trie V), t.Remove key = some (b, t1) →
        ∀ k : List Char, t1.isStored k = true →
          t.isStored k = true ∧ t1.storedValue k = t.storedValue k := by
  refine ⟨Trie.Remove_isSome t key, ?_⟩
  intro b t1 h k hk
  cases key with
  | nil =>
    simp only [Trie.Remove, List.isEmpty_nil, if_true, Option.some.injEq, Prod.mk.injEq] at h
    have ht : t = t1 := h.2
    subst ht
    exact ⟨hk, rfl⟩
  | cons c rest =>
    rw [Trie.Remove_cons] at h
    cases hr : Trie.RemoveHelperFuel (rest.length + 1) (c :: rest) 0 t.root_ with
    | none => simp [hr] at h
    | some r =>
      rw [hr] at h
      cases h
      obtain ⟨_, _, hsub⟩ :=
        Trie.RemoveHelperFuel_valueAt_sub (rest.length + 1) (c :: rest) 0 t.root_ r (by simp)
          hwf hr
      rw [Trie.isStored_eq_valueAt] at hk
      rw [Trie.isStored_eq_valueAt, Trie.storedValue_eq_valueAt, Trie.storedValue_eq_valueAt]
      rcases hsub k with h1 | h1
      · simp [h1] at hk
      · rw [← h1]
        exact ⟨hk, rfl⟩

/-- Witness for C18: in the trie storing "aa" and "aab", `Remove("ab")` returns true
and leaves only "aa" stored; nothing that is stored afterwards is new. -/
theorem C18_Remove_never_adds_a_key_witness :
    trie_aa_aab.Remove ['a', 'b'] = some (true, trie_aa) ∧
      trie_aa.isStored ['a', 'a'] = true ∧
      ((∃ r, trie_aa_aab.Remove ['a', 'b'] = some r) ∧
        ∀ (b : Bool) (t1 : Trie Nat), trie_aa_aab.Remove ['a', 'b'] = some (b, t1) →
          ∀ k : List Char, t1.isStored k = true →
            trie_aa_aab.isStored k = true ∧ t1.storedValue k = trie_aa_aab.storedValue k) :=
  ⟨rfl, by decide, C18_Remove_never_adds_a_key trie_aa_aab ['a', 'b'] (by decide)⟩

end Claims


section Claims

/-- C14 (Remove runs under the exclusive latch) fails on the code: `Remove("aa")` on
the trie storing "aa" reads the root and the node `a` without any `WLock` before
and any `WUnlock` after, so its node accesses are not under the write latch; the
same body bracketed by an `AutoWriterLatch` would be. -/
theorem C14_Remove_takes_no_latch :
    trie_aa.RemoveEvents ['a', 'a'] = [Event.nodeAccess 0, Event.nodeAccess 1] ∧
      Event.WLock ∉ trie_aa.RemoveEvents ['a', 'a'] ∧
      Event.WUnlock ∉ trie_aa.RemoveEvents ['a', 'a'] ∧
      underWriteLatch false (trie_aa.RemoveEvents ['a', 'a']) = false ∧
      underWriteLatch false (AutoWriterLatch.guardedBody (trie_aa.RemoveEvents ['a', 'a'])) = true :=
  ⟨by decide, by decide, by decide, by decide, by decide⟩

end Claims


/-! ## Well-formedness is an invariant of `Remove` -/

namespace Children

variable {V : Type}

theorem count_erase (c d : Char) :
    ∀ m : List (Char × TrieNode V), count c (erase d m) = if c = d then 0 else count c m
  | [] => by simp [erase, count]
  | (k, n) :: rest => by
    by_cases hk : k = d
    · by_cases hc : c = d
      · rw [hc]
        simp [erase, hk, count_erase_self d rest]
      · have hdc : ¬ d = c := fun h => hc h.symm
        simp [erase, count, hk, count_erase c d rest, hc, hdc]
    · by_cases hc : c = d
      · rw [hc]
        simp [erase, count, hk, count_erase d d rest]
      · simp [erase, count, hk, count_erase c d rest, hc]

theorem count_assign (c d : Char) (x : TrieNode V) :
    ∀ m : List (Char × TrieNode V), count c (assign d x m) = count c m
  | [] => rfl
  | (k, n) :: rest => by
    by_cases hk : k = d
    · simp [assign, count, hk]
    · simp [assign, count, hk, count_assign c d x rest]

theorem count_append_singleton (c d : Char) (x : TrieNode V) :
    ∀ m : List (Char × TrieNode V),
      count c (m ++ [(d, x)]) = count c m + if d = c then 1 else 0
  | [] => by simp [count]
  | (k, n) :: rest => by
    by_cases hk : k = c
    · simp [count, hk, count_append_singleton c d x rest]
      omega
    · simp [count, hk, count_append_singleton c d x rest]

end Children

namespace TrieNode

variable {V : Type}

theorem wellFormedIn_erase (d : Char) :
    ∀ m : List (Char × TrieNode V), wellFormedIn m = true →
      wellFormedIn (Children.erase d m) = true
  | [], _ => rfl
  | (k, n) :: rest, h => by
    simp only [wellFormedIn, Bool.and_eq_true, decide_eq_true_eq] at h
    by_cases hk : k = d
    · simp [Children.erase, hk, wellFormedIn_erase d rest h.2]
    · simp [Children.erase, hk, wellFormedIn, h.1.1.1, h.1.2, Children.count_erase,
        h.1.1.2, wellFormedIn_erase d rest h.2]

theorem wellFormedIn_assign (d : Char) (x : TrieNode V) (hx : x.key_char_ = d)
    (hxw : x.wellFormed = true) :
    ∀ m : List (Char × TrieNode V), wellFormedIn m = true →
      wellFormedIn (Children.assign d x m) = true
  | [], _ => rfl
  | (k, n) :: rest, h => by
    simp only [wellFormedIn, Bool.and_eq_true, decide_eq_true_eq] at h
    by_cases hk : k = d
    · subst hk
      simp [Children.assign, wellFormedIn, hx, hxw, h.2, h.1.1.2]
    · simp [Children.assign, hk, wellFormedIn, h.1.1.1, h.1.2, Children.count_assign,
        h.1.1.2, wellFormedIn_assign d x hx hxw rest h.2]

theorem wellFormedIn_append (d : Char) (x : TrieNode V) (hx : x.key_char_ = d)
    (hxw : x.wellFormed = true) :
    ∀ m : List (Char × TrieNode V), wellFormedIn m = true → Children.count d m = 0 →
      wellFormedIn (m ++ [(d, x)]) = true
  | [], _, _ => by simp [wellFormedIn, hx, hxw, Children.count]
  | (k, n) :: rest, h, hc => by
    simp only [wellFormedIn, Bool.and_eq_true, decide_eq_true_eq] at h
    by_cases hk : k = d
    · simp [Children.count, hk] at hc
    · have hdk : ¬ d = k := fun h => hk h.symm
      simp only [Children.count, hk, if_false] at hc
      simp [wellFormedIn, h.1.1.1, h.1.2, Children.count_append_singleton, h.1.1.2, hdk,
        wellFormedIn_append d x hx hxw rest h.2 hc]

theorem descend_wellFormed {prev n1 r : TrieNode V} {k0 ki : Char}
    (hwf : prev.wellFormed = true) (hk : n1.key_char_ = k0) (hn1 : n1.wellFormed = true)
    (hr : r = if n1.isDead then (prev.storeChild k0 n1).RemoveChildNode ki
      else prev.storeChild k0 n1) :
    r.wellFormed = true := by
  cases prev with
  | mk kc e v cs =>
    simp only [wellFormed] at hwf
    by_cases hd : n1.isDead = true
    · rw [if_pos hd] at hr
      subst hr
      simp only [storeChild, RemoveChildNode, withChildren, children_, wellFormed]
      exact wellFormedIn_erase ki _ (wellFormedIn_assign k0 n1 hk hn1 cs hwf)
    · rw [if_neg hd] at hr
      subst hr
      simp only [storeChild, withChildren, children_, wellFormed]
      exact wellFormedIn_assign k0 n1 hk hn1 cs hwf

theorem end_value_wellFormed {prev n r : TrieNode V} {k0 ki : Char}
    (hwf : prev.wellFormed = true) (hkc : n.key_char_ = k0) (hnw : n.wellFormed = true)
    (hr : r = if (moveFrom n).1.HasChildren then
        (((prev.storeChild k0 (moveFrom n).2).RemoveChildNode ki).InsertChildNode ki
          (moveFrom n).1).2
      else (prev.storeChild k0 (moveFrom n).2).RemoveChildNode ki) :
    r.wellFormed = true := by
  have h2k : (moveFrom n).2.key_char_ = k0 := by
    cases n with
    | mk a b c d => simpa [moveFrom, withChildren, key_char_] using hkc
  have h2w : (moveFrom n).2.wellFormed = true := by
    cases n with
    | mk a b c d => simp [moveFrom, withChildren, wellFormed, wellFormedIn]
  have h1w : (moveFrom n).1.wellFormed = true := by
    cases n with
    | mk a b c d => simpa [moveFrom, wellFormed, children_] using hnw
  cases prev with
  | mk kc e v cs =>
    simp only [wellFormed] at hwf
    have hX : wellFormedIn (Children.erase ki (Children.assign k0 (moveFrom n).2 cs)) = true :=
      wellFormedIn_erase ki _ (wellFormedIn_assign k0 _ h2k h2w cs hwf)
    have hstep : ((mk kc e v cs).storeChild k0 (moveFrom n).2).RemoveChildNode ki =
        mk kc e v (Children.erase ki (Children.assign k0 (moveFrom n).2 cs)) := rfl
    rw [hstep, InsertChildNode_mk] at hr
    by_cases hch : (moveFrom n).1.HasChildren = true
    · rw [if_pos hch] at hr
      by_cases hins : (moveFrom n).1.GetKeyChar = ki ∧
          Children.count ki (Children.erase ki (Children.assign k0 (moveFrom n).2 cs)) = 0
      · rw [if_pos hins] at hr
        subst hr
        simp only [wellFormed]
        exact wellFormedIn_append ki _ hins.1 h1w _ hX hins.2
      · rw [if_neg hins] at hr
        subst hr
        simpa only [wellFormed] using hX
    · rw [if_neg hch] at hr
      subst hr
      simpa only [wellFormed] using hX

end TrieNode

namespace Trie

variable {V : Type}

/-- A call of `RemoveHelper` on a well-formed subtree leaves a well-formed subtree
with the same key character at its top. -/
theorem RemoveHelperFuel_wellFormed :
    ∀ (fuel : Nat) (key : List Char) (idx : Nat) (prev : TrieNode V) (r : Bool × TrieNode V),
      idx < key.length → prev.wellFormed = true →
      RemoveHelperFuel fuel key idx prev = some r →
      r.2.key_char_ = prev.key_char_ ∧ r.2.wellFormed = true
  | 0, key, idx, _, _, _, _, h => by simp [RemoveHelperFuel] at h
  | fuel + 1, key, idx, prev, r, hlt, hwf, h => by
    obtain ⟨k0, h0⟩ := getElem?_zero_of_lt hlt
    obtain ⟨ki, hi⟩ := getElem?_of_lt hlt
    cases hn : prev.GetChildNode k0 with
    | none =>
      rw [RemoveHelperFuel_absent h0 hn] at h
      cases h
      exact ⟨rfl, hwf⟩
    | some n =>
      have hchild := TrieNode.wellFormed_child hwf hn
      by_cases hend : key.length = idx + 1
      · cases hv : n.IsEndNode with
        | false =>
          rw [RemoveHelperFuel_end_plain h0 hn hend hv] at h
          cases h
          exact ⟨rfl, hwf⟩
        | true =>
          obtain ⟨x, hres, hx⟩ :=
            @RemoveHelperFuel_end_value_ex V fuel key idx prev n k0 ki h0 hi hn hend hv
          rw [hres] at h
          cases h
          exact ⟨(TrieNode.end_value_result hn hchild.1 hx).1,
            TrieNode.end_value_wellFormed hwf hchild.1 hchild.2 hx⟩
      · cases hrec : RemoveHelperFuel fuel key (idx + 1) n with
        | none => simp [RemoveHelperFuel_descend h0 hi hn hend, hrec] at h
        | some r1 =>
          obtain ⟨b, n1⟩ := r1
          obtain ⟨hk1, hw1⟩ :=
            RemoveHelperFuel_wellFormed fuel key (idx + 1) n (b, n1) (by omega) hchild.2 hrec
          obtain ⟨x, hres, hx⟩ := RemoveHelperFuel_descend_ex h0 hi hn hend hrec
          rw [hres] at h
          cases h
          exact ⟨(TrieNode.descend_result hn hx).1,
            TrieNode.descend_wellFormed hwf (hk1.trans hchild.1) hw1 hx⟩

/-- The empty trie is well-formed, and `Remove` keeps a trie well-formed. -/
theorem Remove_wellFormed (t : Trie V) (key : List Char) (r : Bool × Trie V)
    (hwf : t.wellFormed = true) (h : t.Remove key = some r) :
    (Trie.new : Trie V).wellFormed = true ∧ r.2.wellFormed = true := by
  refine ⟨rfl, ?_⟩
  cases key with
  | nil =>
    simp only [Remove, List.isEmpty_nil, if_true, Option.some.injEq] at h
    rw [← h]
    exact hwf
  | cons c rest =>
    rw [Remove_cons] at h
    cases hr : RemoveHelperFuel (rest.length + 1) (c :: rest) 0 t.root_ with
    | none => simp [hr] at h
    | some r1 =>
      rw [hr] at h
      cases h
      exact (RemoveHelperFuel_wellFormed (rest.length + 1) (c :: rest) 0 t.root_ r1 (by simp)
        hwf hr).2

end Trie

end bustub
